import Mathlib

/-!
Verification of the lazy k-permutations engine (`src/permutations.rs`).

The Rust source is shallowly embedded: `usize` values become `Nat` with
explicit overflow checks at `2 ^ 64` for the `checked_mul` / `checked_add`
calls, slices become `List Nat`, the `LazyBuffer` collaborator (which lives
outside this repository's sources) is modelled from the spec as a cached
prefix of the remaining source list, and the fallible parts (`panic!`,
checked arithmetic) return `Option`.
-/

namespace Permut

/-- Number of values of `usize`; checked arithmetic overflows at this bound. -/
def USIZE : Nat := 2 ^ 64

/-- Model of `usize::checked_mul`. -/
def checked_mul (a b : Nat) : Option Nat :=
  if a * b < USIZE then some (a * b) else none

/-- Model of `usize::checked_add`. -/
def checked_add (a b : Nat) : Option Nat :=
  if a + b < USIZE then some (a + b) else none

/-- Product `a * (a+1) * ... * (a+m-1)` of `m` consecutive integers. -/
def prodRange (a m : Nat) : Nat := (List.range' a m).foldl (· * ·) 1

/-- Mathematical number of k-permutations of n items: the falling factorial
`n * (n-1) * ... * (n-k+1)`, and `0` when `n < k`. -/
def ffNat (n k : Nat) : Nat := if n < k then 0 else prodRange (n - k + 1) k

/-- Digit list `[b-1, b-2, ..., b-m]`: the largest digit values for mixed
radixes `b, b-1, ..., b-m+1`.  The freshly initialised `cycles` vector of the
stepping algorithm equals `allMax n k`. -/
def allMax (b m : Nat) : List Nat := (List.range' (b - m) m).reverse

/-- Digit bound invariant for the `cycles` vector: `cycles[i] ≤ n - 1 - i`
for every position `i`, stated without truncated subtraction. -/
def DigitsOk (n : Nat) (cyc : List Nat) : Prop :=
  ∀ i, i < cyc.length → cyc.getD i 0 + i + 1 ≤ n

instance (n : Nat) (cyc : List Nat) : Decidable (DigitsOk n cyc) :=
  Nat.decidableBallLT cyc.length fun i _ => cyc.getD i 0 + i + 1 ≤ n

/-- Mixed-radix value of a digit list whose leading digit has radix `n`, the
next one radix `n - 1`, and so on.  The digit at depth `i` weighs the falling
factorial of the radixes below it. -/
def mval (n : Nat) : List Nat → Nat
  | [] => 0
  | c :: cs => c * prodRange (n - cs.length) cs.length + mval (n - 1) cs

/-- Mixed-radix decrement on a most-significant-first digit list with leading
radix `n`: returns `none` exactly when every digit is zero, otherwise borrows
from the least significant position, resetting exhausted digits to their
largest value. -/
def decMS : Nat → List Nat → Option (List Nat)
  | _, [] => none
  | n, c :: cs =>
    match decMS (n - 1) cs with
    | some cs2 => some (c :: cs2)
    | none => if c = 0 then none else some ((c - 1) :: allMax (n - 1) cs.length)

/-- Selection decode: digit `c` read against an availability list `avail`
picks the element at position `avail.length - 1 - c`; the picked elements are
followed by the untouched remainder of `avail`.  Every reachable `indices`
vector of the stepping algorithm is `buildIndices (List.range n) cycles`. -/
def buildIndices : List Nat → List Nat → List Nat
  | avail, [] => avail
  | avail, c :: cs =>
    avail.getD (avail.length - 1 - c) 0 ::
      buildIndices (avail.eraseIdx (avail.length - 1 - c)) cs

/-- Just the picked elements of `buildIndices`: the exposed k-permutation. -/
def picks : List Nat → List Nat → List Nat
  | _, [] => []
  | avail, c :: cs =>
    avail.getD (avail.length - 1 - c) 0 ::
      picks (avail.eraseIdx (avail.length - 1 - c)) cs

/-- Availability list left over after all digits have picked. -/
def availAfter : List Nat → List Nat → List Nat
  | avail, [] => avail
  | avail, c :: cs => availAfter (avail.eraseIdx (avail.length - 1 - c)) cs

/-!  Embedding of the Rust source proper. -/

/-- Model of `<[T]>::rotate_left(1)` restricted to the way the source uses it:
the head element moves to the back. -/
def rot1 : List Nat → List Nat
  | [] => []
  | x :: xs => xs ++ [x]

/-- Model of `<[T]>::swap(a, b)` (in-range in all reachable uses). -/
def listSwap (l : List Nat) (a b : Nat) : List Nat :=
  (l.set a (l.getD b 0)).set b (l.getD a 0)

/-- The loop of the free function `advance` in `permutations.rs`: the counter
argument `i` walks the positions `i - 1, i - 2, ..., 0` of `cycles`, exactly
like Rust's `for i in (0..k).rev()` entered at `i = k`.  Returns the updated
`indices`, the updated `cycles`, and the `bool` the Rust function returns. -/
def advanceGo (n : Nat) : Nat → List Nat → List Nat → List Nat × List Nat × Bool
  | 0, ind, cyc => (ind, cyc, true)
  | i + 1, ind, cyc =>
    if cyc.getD i 0 = 0 then
      advanceGo n i (ind.take i ++ rot1 (ind.drop i)) (cyc.set i (n - i - 1))
    else
      (listSwap ind i (n - cyc.getD i 0), cyc.set i (cyc.getD i 0 - 1), false)

/-- Model of the free function `advance(indices, cycles) -> bool`, together
with the mutated slices. -/
def advance (ind cyc : List Nat) : List Nat × List Nat × Bool :=
  advanceGo ind.length cyc.length ind cyc

/-- Model of `enum CompleteState`. -/
inductive CompleteState : Type where
  | Start (n k : Nat)
  | Ongoing (indices : List Nat) (cycles : List Nat)
deriving DecidableEq, Repr

/-- Model of `CompleteState::advance`. -/
def CompleteState.advance : CompleteState → CompleteState
  | .Start n k =>
    CompleteState.Ongoing (List.range n) ((List.range' (n - k) (n - (n - k))).reverse)
  | .Ongoing ind cyc =>
    let r := Permut.advance ind cyc
    if r.2.2 then CompleteState.Start r.1.length r.2.1.length
    else CompleteState.Ongoing r.1 r.2.1

/-- Iterated `CompleteState::advance`, as performed by the splice loop
`for _ in 0..(prev_iteration_count + 1)` in `Permutations::next`. -/
def CompleteState.advanceN : CompleteState → Nat → CompleteState
  | c, 0 => c
  | c, m + 1 => CompleteState.advanceN c.advance m

/-- Model of `CompleteState::remaining`. -/
def CompleteState.remaining : CompleteState → Option Nat
  | .Start n k =>
    if n < k then some 0
    else (List.range' (n - k + 1) k).foldlM checked_mul 1
  | .Ongoing ind cyc =>
    cyc.enum.foldlM
      (fun acc p => (checked_mul acc (ind.length - p.1)).bind fun c => checked_add c p.2)
      0

/-- Modelled from the spec: the `LazyBuffer` buffering adapter (not part of
this repository's sources).  `buffer` is the cached prefix already pulled
from the source; `it` is the part of the source not yet pulled. -/
structure LazyBuffer (α : Type) : Type where
  buffer : List α
  it : List α
deriving DecidableEq, Repr

/-- Modelled from the spec: `LazyBuffer::new`. -/
def LazyBuffer.new (src : List α) : LazyBuffer α := ⟨[], src⟩

/-- Modelled from the spec: `LazyBuffer::prefill(k)` caches elements until at
least `k` are buffered or the source is exhausted. -/
def LazyBuffer.prefill (b : LazyBuffer α) (k : Nat) : LazyBuffer α :=
  ⟨b.buffer ++ b.it.take (k - b.buffer.length), b.it.drop (k - b.buffer.length)⟩

/-- Modelled from the spec: `LazyBuffer::len`, the cached-element count. -/
def LazyBuffer.len (b : LazyBuffer α) : Nat := b.buffer.length

/-- Modelled from the spec: `LazyBuffer::get_next` pulls one more source
element into the cache, reporting whether one existed. -/
def LazyBuffer.get_next (b : LazyBuffer α) : Bool × LazyBuffer α :=
  match b.it with
  | [] => (false, b)
  | x :: rest => (true, ⟨b.buffer ++ [x], rest⟩)

/-- Modelled from the spec: `LazyBuffer::count` drains the source and returns
the total number of elements. -/
def LazyBuffer.count (b : LazyBuffer α) : Nat := b.buffer.length + b.it.length

/-- Modelled from the spec: indexed access `vals[i]` into the cache (in range
in all reachable uses; out of range falls back to `default`). -/
def LazyBuffer.idx [Inhabited α] (b : LazyBuffer α) (i : Nat) : α :=
  b.buffer.getD i default

/-- Modelled from the spec: `LazyBuffer::size_hint`; for a list-backed source
the length is exact. -/
def LazyBuffer.sizeHint (b : LazyBuffer α) : Nat × Option Nat :=
  (b.buffer.length + b.it.length, some (b.buffer.length + b.it.length))

/-- Model of `enum PermutationState`. -/
inductive PermutationState : Type where
  | Start (k : Nat)
  | Buffered (k minN : Nat)
  | Loaded (s : CompleteState)
  | End
deriving DecidableEq, Repr

/-- Model of `struct Permutations`. -/
structure Permutations (α : Type) : Type where
  vals : LazyBuffer α
  state : PermutationState
deriving DecidableEq, Repr

/-- Model of the constructor `permutations(iter, k)`. -/
def permutations (iter : List α) (k : Nat) : Permutations α :=
  let vals := LazyBuffer.new iter
  if k = 0 then ⟨vals, .Loaded (.Start 0 0)⟩
  else
    let vals2 := vals.prefill k
    if vals2.len = k then ⟨vals2, .Start k⟩ else ⟨vals2, .End⟩

/-- First half of `Permutations::next`: the state-mutating block. -/
def Permutations.step (p : Permutations α) : Permutations α :=
  match p.state with
  | .Start k => ⟨p.vals, .Buffered k k⟩
  | .Buffered k minN =>
    match p.vals.get_next with
    | (true, v2) => ⟨v2, .Buffered k (minN + 1)⟩
    | (false, v2) =>
      let n := minN
      let prevIterationCount := n - k + 1
      ⟨v2, .Loaded (CompleteState.advanceN (.Start n k) (prevIterationCount + 1))⟩
  | .Loaded s => ⟨p.vals, .Loaded s.advance⟩
  | .End => p

/-- Second half of `Permutations::next`, at the index level: the positions
read from the buffer for the current permutation.  The outer `none` is the
`panic!("unexpected iterator state")` branch; `some none` is an exhausted
step (`next` returns `None`). -/
def PermutationState.outputIdx : PermutationState → Option (Option (List Nat))
  | .Start _ => none
  | .Buffered k minN => some (some (List.range (k - 1) ++ [minN - 1]))
  | .Loaded (.Ongoing ind cyc) => some (some (ind.take cyc.length))
  | .Loaded (.Start _ _) => some none
  | .End => some none

/-- Model of `Permutations::next`: advance the state, then read the exposed
permutation through the buffer.  `none` is the panic branch. -/
def Permutations.next [Inhabited α] (p : Permutations α) :
    Option (Option (List α) × Permutations α) :=
  let q := p.step
  match q.state.outputIdx with
  | none => none
  | some o => some (o.map (fun l => l.map q.vals.idx), q)

/-- Iterated phase-one stepping: the engine state after `t` calls to `next`. -/
def Permutations.stepN (p : Permutations α) : Nat → Permutations α
  | 0 => p
  | t + 1 => p.step.stepN t

/-- Output of the `t`-th call to `next` (`t ≥ 1`), at the index level. -/
def Permutations.outAt (p : Permutations α) (t : Nat) : Option (Option (List Nat)) :=
  (p.stepN t).state.outputIdx

/-- Output of the `t`-th call to `next` (`t ≥ 1`), at the element level. -/
def Permutations.callOut [Inhabited α] (p : Permutations α) (t : Nat) :
    Option (Option (List α)) :=
  ((p.stepN t).state.outputIdx).map
    (Option.map (List.map (p.stepN t).vals.idx))

/-- Collect the results of the first `m` calls to `next`, stopping early only
if the panic branch were ever hit. -/
def Permutations.nextN [Inhabited α] : Permutations α → Nat → List (Option (List α))
  | _, 0 => []
  | p, m + 1 =>
    match p.next with
    | none => []
    | some (o, p2) => o :: p2.nextN m

/-- Model of `Permutations::count` (an exact, source-draining count); `none`
is the `expect` panic on an overflowing `remaining`. -/
def Permutations.count (p : Permutations α) : Option Nat :=
  match p.state with
  | .Start k => CompleteState.remaining (.Start p.vals.count k)
  | .Buffered k minN =>
    let prevIterationCount := minN - k + 1
    (CompleteState.remaining (.Start p.vals.count k)).map (· - prevIterationCount)
  | .Loaded s => s.remaining
  | .End => some 0

/-- Modelled from the spec: `size_hint::sub_scalar` subtracts an already
emitted count from both bounds (saturating, as `Nat` subtraction is). -/
def subScalar (h : Nat × Option Nat) (x : Nat) : Nat × Option Nat :=
  (h.1 - x, h.2.map (fun u => u - x))

/-- The `at_start` closure inside `Permutations::size_hint`. -/
def atStartHint (valsHint : Nat × Option Nat) (k : Nat) : Nat × Option Nat :=
  ((CompleteState.remaining (.Start valsHint.1 k)).getD (USIZE - 1),
   valsHint.2.bind fun n => CompleteState.remaining (.Start n k))

/-- Model of `Permutations::size_hint`, abstracted over the size hint reported
by the buffering adapter (an arbitrary lower/upper bound pair, since the
underlying source is an arbitrary iterator). -/
def sizeHintAux (valsHint : Nat × Option Nat) : PermutationState → Nat × Option Nat
  | .Start k => atStartHint valsHint k
  | .Buffered k minN => subScalar (atStartHint valsHint k) (minN - k + 1)
  | .Loaded s =>
    match s.remaining with
    | some c => (c, some c)
    | none => (USIZE - 1, none)
  | .End => (0, some 0)

/-- Model of `Permutations::size_hint` with the list-backed buffer's hint. -/
def Permutations.sizeHint (p : Permutations α) : Nat × Option Nat :=
  sizeHintAux p.vals.sizeHint p.state

end Permut

namespace Permut

/-! Basic list helpers. -/

theorem getD_set_self : ∀ (l : List Nat) (i : Nat) (x : Nat), i < l.length →
    (l.set i x).getD i 0 = x := by
  intro l
  induction l with
  | nil => intro i x h; simp at h
  | cons a as ih =>
    intro i x h
    cases i with
    | zero => rfl
    | succ j => simpa using ih j x (by simpa using h)

theorem getD_set_ne : ∀ (l : List Nat) (i j : Nat) (x d : Nat), i ≠ j →
    (l.set i x).getD j d = l.getD j d := by
  intro l
  induction l with
  | nil => intro i j x d _; simp [List.set]
  | cons a as ih =>
    intro i j x d hij
    cases i with
    | zero =>
      cases j with
      | zero => exact absurd rfl hij
      | succ j2 => rfl
    | succ i2 =>
      cases j with
      | zero => rfl
      | succ j2 => simpa using ih i2 j2 x d (by omega)

theorem length_set' (l : List Nat) (i x : Nat) : (l.set i x).length = l.length :=
  List.length_set l i x

theorem getD_append_left {l₁ l₂ : List α} {i : Nat} (d : α) (h : i < l₁.length) :
    (l₁ ++ l₂).getD i d = l₁.getD i d := by
  induction l₁ generalizing i with
  | nil => simp at h
  | cons a as ih =>
    cases i with
    | zero => rfl
    | succ j => simpa using ih (by simpa using h)

theorem eraseIdx_getD_succ : ∀ (l : List Nat) (j : Nat), j + 1 < l.length →
    (l.eraseIdx j).getD j 0 = l.getD (j + 1) 0 := by
  intro l
  induction l with
  | nil => intro j h; simp at h
  | cons a as ih =>
    intro j h
    cases j with
    | zero =>
      cases as with
      | nil => simp at h
      | cons b bs => rfl
    | succ j2 => simpa using ih j2 (by simpa using h)

theorem set_eraseIdx : ∀ (l : List Nat) (j : Nat), j + 1 < l.length →
    (l.eraseIdx j).set j (l.getD j 0) = l.eraseIdx (j + 1) := by
  intro l
  induction l with
  | nil => intro j h; simp at h
  | cons a as ih =>
    intro j h
    cases j with
    | zero =>
      cases as with
      | nil => simp at h
      | cons b bs => rfl
    | succ j2 =>
      have := ih j2 (by simpa using h)
      simp only [List.eraseIdx, List.set, List.getD_cons_succ]
      rw [this]

theorem eraseIdx_last_append : ∀ (l : List Nat), l ≠ [] →
    l.eraseIdx (l.length - 1) ++ [l.getD (l.length - 1) 0] = l := by
  intro l
  induction l with
  | nil => intro h; exact absurd rfl h
  | cons a as ih =>
    intro _
    cases as with
    | nil => rfl
    | cons b bs =>
      have h2 := ih (by simp)
      show a :: ((b :: bs).eraseIdx ((b :: bs).length - 1) ++
        [(b :: bs).getD ((b :: bs).length - 1) 0]) = a :: b :: bs
      rw [h2]

theorem length_eraseIdx_lt {l : List Nat} {j : Nat} (h : j < l.length) :
    (l.eraseIdx j).length = l.length - 1 := by
  rw [List.length_eraseIdx]
  simp [h]

end Permut

namespace Permut

/-! Arithmetic of falling-factorial products and mixed-radix digit lists. -/

theorem foldl_mul_init : ∀ (l : List Nat) (c : Nat),
    l.foldl (· * ·) c = c * l.foldl (· * ·) 1 := by
  intro l
  induction l with
  | nil => intro c; simp
  | cons a as ih =>
    intro c
    show as.foldl (· * ·) (c * a) = c * as.foldl (· * ·) (1 * a)
    rw [ih (c * a), ih (1 * a)]
    ring

theorem prodRange_zero (a : Nat) : prodRange a 0 = 1 := rfl

theorem prodRange_succ_head (a m : Nat) :
    prodRange a (m + 1) = a * prodRange (a + 1) m := by
  show (List.range' a (m + 1)).foldl (· * ·) 1 = _
  rw [List.range'_succ]
  show (List.range' (a + 1) m).foldl (· * ·) (1 * a) = _
  rw [foldl_mul_init]
  simp [prodRange]

theorem prodRange_succ_last (a m : Nat) :
    prodRange a (m + 1) = prodRange a m * (a + m) := by
  show (List.range' a (m + 1)).foldl (· * ·) 1 = _
  rw [List.range'_concat]
  rw [List.foldl_append]
  show (List.range' a m).foldl (· * ·) 1 * (a + 1 * m) = _
  simp [prodRange]

theorem prodRange_pos {a : Nat} (h : 1 ≤ a) (m : Nat) : 0 < prodRange a m := by
  induction m with
  | zero => simp [prodRange_zero]
  | succ m ih =>
    rw [prodRange_succ_last]
    exact Nat.mul_pos ih (by omega)

theorem prodRange_ge_last {a : Nat} (h : 1 ≤ a) (m : Nat) :
    a + m ≤ prodRange a (m + 1) := by
  rw [prodRange_succ_last]
  calc a + m = 1 * (a + m) := by ring
  _ ≤ prodRange a m * (a + m) := Nat.mul_le_mul_right _ (prodRange_pos h m)

theorem allMax_zero (b : Nat) : allMax b 0 = [] := rfl

theorem allMax_succ {b m : Nat} (h : m < b) :
    allMax b (m + 1) = (b - 1) :: allMax (b - 1) m := by
  show (List.range' (b - (m + 1)) (m + 1)).reverse = _
  rw [List.range'_concat, List.reverse_append]
  have h1 : b - (m + 1) + 1 * m = b - 1 := by omega
  have h2 : b - (m + 1) = b - 1 - m := by omega
  rw [h1, h2]
  rfl

theorem allMax_length (b m : Nat) : (allMax b m).length = m := by
  simp [allMax]

theorem init_cycles_eq {n k : Nat} (h : k ≤ n) :
    (List.range' (n - k) (n - (n - k))).reverse = allMax n k := by
  show _ = (List.range' (n - k) k).reverse
  rw [show n - (n - k) = k by omega]

theorem getD_allMax : ∀ (m b i : Nat), m ≤ b → i < m →
    (allMax b m).getD i 0 = b - 1 - i := by
  intro m
  induction m with
  | zero => intro b i _ hi; omega
  | succ m ih =>
    intro b i hm hi
    rw [allMax_succ (by omega)]
    cases i with
    | zero => rfl
    | succ j =>
      rw [List.getD_cons_succ, ih (b - 1) j (by omega) (by omega)]
      omega

theorem DigitsOk_allMax {n k : Nat} (h : k ≤ n) : DigitsOk n (allMax n k) := by
  intro i hi
  rw [allMax_length] at hi
  rw [getD_allMax k n i h hi]
  omega

theorem DigitsOk_cons {n c : Nat} {cs : List Nat} :
    DigitsOk n (c :: cs) ↔ c + 1 ≤ n ∧ DigitsOk (n - 1) cs := by
  constructor
  · intro h
    refine ⟨h 0 (by simp), ?_⟩
    intro i hi
    have := h (i + 1) (by simpa using Nat.succ_lt_succ hi)
    rw [List.getD_cons_succ] at this
    omega
  · rintro ⟨h1, h2⟩ i hi
    cases i with
    | zero => simpa using h1
    | succ j =>
      rw [List.getD_cons_succ]
      have := h2 j (by simpa using Nat.lt_of_succ_lt_succ hi)
      omega

theorem mval_nil (n : Nat) : mval n [] = 0 := rfl

theorem mval_cons (n c : Nat) (cs : List Nat) :
    mval n (c :: cs) = c * prodRange (n - cs.length) cs.length + mval (n - 1) cs := rfl

theorem mval_zero_of_all_zero : ∀ (cs : List Nat) (n : Nat),
    (∀ c ∈ cs, c = 0) → mval n cs = 0 := by
  intro cs
  induction cs with
  | nil => intro n _; rfl
  | cons c cs ih =>
    intro n h
    rw [mval_cons, h c (by simp), ih (n - 1) (fun x hx => h x (by simp [hx]))]
    simp

theorem mval_eq_zero_iff : ∀ (cs : List Nat) (n : Nat), cs.length ≤ n →
    (mval n cs = 0 ↔ ∀ c ∈ cs, c = 0) := by
  intro cs
  induction cs with
  | nil => intro n _; simp [mval_nil]
  | cons c cs ih =>
    intro n hlen
    rw [mval_cons]
    have hW : 0 < prodRange (n - cs.length) cs.length :=
      prodRange_pos (by simp at hlen; omega) _
    constructor
    · intro h
      have hc : c = 0 := by
        by_contra hc
        have : 1 ≤ c * prodRange (n - cs.length) cs.length :=
          Nat.mul_pos (by omega) hW
        omega
    
      have hrest : mval (n - 1) cs = 0 := by omega
      have := (ih (n - 1) (by simp at hlen; omega)).mp hrest
      intro x hx
      rcases List.mem_cons.mp hx with h1 | h1
      · omega
      · exact this x h1
    · intro h
      rw [h c (by simp), mval_zero_of_all_zero cs (n - 1) (fun x hx => h x (by simp [hx]))]
      simp

theorem mval_lt : ∀ (cs : List Nat) (n : Nat), DigitsOk n cs → cs.length ≤ n →
    mval n cs < prodRange (n - cs.length + 1) cs.length := by
  intro cs
  induction cs with
  | nil => intro n _ _; simp [mval_nil, prodRange_zero]
  | cons c cs ih =>
    intro n hok hlen
    simp only [List.length_cons] at hlen
    obtain ⟨hc, hok2⟩ := DigitsOk_cons.mp hok
    have ihv := ih (n - 1) hok2 (by omega)
    rw [mval_cons]
    simp only [List.length_cons]
    have hW : prodRange ((n - 1) - cs.length + 1) cs.length
        = prodRange (n - cs.length) cs.length := by
      rw [show (n - 1) - cs.length + 1 = n - cs.length by omega]
    rw [hW] at ihv
    have hmul : (c + 1) * prodRange (n - cs.length) cs.length
        = c * prodRange (n - cs.length) cs.length
          + prodRange (n - cs.length) cs.length := by ring
    have hstep : (c + 1) * prodRange (n - cs.length) cs.length
        ≤ n * prodRange (n - cs.length) cs.length :=
      Nat.mul_le_mul_right _ (by omega)
    have hgoal : prodRange (n - (cs.length + 1) + 1) (cs.length + 1)
        = prodRange (n - cs.length) cs.length * n := by
      rw [show n - (cs.length + 1) + 1 = n - cs.length by omega]
      rw [prodRange_succ_last]
      congr 1
      omega
    rw [hgoal]
    have hcomm : prodRange (n - cs.length) cs.length * n
        = n * prodRange (n - cs.length) cs.length := by ring
    omega

end Permut

namespace Permut

theorem mval_allMax : ∀ (m b : Nat), m ≤ b →
    mval b (allMax b m) = prodRange (b - m + 1) m - 1 := by
  intro m
  induction m with
  | zero => intro b _; simp [allMax_zero, mval_nil, prodRange_zero]
  | succ m ih =>
    intro b hm
    rw [allMax_succ (by omega), mval_cons, allMax_length]
    have ihv := ih (b - 1) (by omega)
    rw [show b - 1 - m + 1 = b - m by omega] at ihv
    rw [ihv]
    have hW : 0 < prodRange (b - m) m := prodRange_pos (by omega) m
    have hgoal : prodRange (b - (m + 1) + 1) (m + 1) = prodRange (b - m) m * b := by
      rw [show b - (m + 1) + 1 = b - m by omega, prodRange_succ_last]
      congr 1
      omega
    rw [hgoal]
    have hmul : b * prodRange (b - m) m
        = (b - 1) * prodRange (b - m) m + prodRange (b - m) m := by
      have h1 : (b - 1) * prodRange (b - m) m
          = b * prodRange (b - m) m - prodRange (b - m) m :=
        Nat.sub_one_mul b (prodRange (b - m) m)
      have h2 : prodRange (b - m) m ≤ b * prodRange (b - m) m :=
        Nat.le_mul_of_pos_left _ (by omega)
      omega
    have hcomm : prodRange (b - m) m * b = b * prodRange (b - m) m := by ring
    omega

theorem decMS_none_iff : ∀ (cs : List Nat) (n : Nat),
    decMS n cs = none ↔ ∀ c ∈ cs, c = 0 := by
  intro cs
  induction cs with
  | nil => intro n; simp [decMS]
  | cons c cs ih =>
    intro n
    show (match decMS (n - 1) cs with
      | some cs2 => some (c :: cs2)
      | none => if c = 0 then none
          else some ((c - 1) :: allMax (n - 1) cs.length)) = none ↔ _
    cases h : decMS (n - 1) cs with
    | some cs2 =>
      simp only []
      constructor
      · intro hc; exact absurd hc (by simp)
      · intro hall
        have : decMS (n - 1) cs = none := (ih (n - 1)).mpr
          (fun x hx => hall x (by simp [hx]))
        rw [h] at this
        exact absurd this (by simp)
    | none =>
      have hall := (ih (n - 1)).mp h
      by_cases hc : c = 0
      · simp only [hc, if_pos rfl]
        constructor
        · intro _ x hx
          rcases List.mem_cons.mp hx with h1 | h1
          · omega
          · exact hall x h1
        · intro _; rfl
      · simp only [if_neg hc]
        constructor
        · intro habs; exact absurd habs (by simp)
        · intro hallc
          exact absurd (hallc c (by simp)) hc

theorem decMS_some_spec : ∀ (cs : List Nat) (n : Nat) (cs' : List Nat),
    cs.length ≤ n → DigitsOk n cs → decMS n cs = some cs' →
    cs'.length = cs.length ∧ DigitsOk n cs' ∧ mval n cs' + 1 = mval n cs := by
  intro cs
  induction cs with
  | nil =>
    intro n cs' _ _ h
    simp [decMS] at h
  | cons c cs ih =>
    intro n cs' hlen hok hdec
    simp only [List.length_cons] at hlen
    obtain ⟨hc, hok2⟩ := DigitsOk_cons.mp hok
    simp only [decMS] at hdec
    cases h : decMS (n - 1) cs with
    | some cs2 =>
      rw [h] at hdec
      simp only [Option.some.injEq] at hdec
      subst hdec
      obtain ⟨hl2, hok3, hv2⟩ := ih (n - 1) cs2 (by omega) hok2 h
      refine ⟨by simp [hl2], DigitsOk_cons.mpr ⟨hc, hok3⟩, ?_⟩
      rw [mval_cons, mval_cons, hl2]
      omega
    | none =>
      rw [h] at hdec
      have hall := (decMS_none_iff cs (n - 1)).mp h
      by_cases hc0 : c = 0
      · simp [hc0] at hdec
      · rw [if_neg hc0] at hdec
        simp only [Option.some.injEq] at hdec
        subst hdec
        have hW : 0 < prodRange (n - cs.length) cs.length :=
          prodRange_pos (by omega) _
        refine ⟨by simp [allMax_length], ?_, ?_⟩
        · exact DigitsOk_cons.mpr ⟨by omega, DigitsOk_allMax (by omega)⟩
        · rw [mval_cons, mval_cons, allMax_length]
          rw [mval_zero_of_all_zero cs (n - 1) hall]
          have hAM := mval_allMax cs.length (n - 1) (by omega)
          rw [show n - 1 - cs.length + 1 = n - cs.length by omega] at hAM
          rw [hAM]
          have h1 : (c - 1) * prodRange (n - cs.length) cs.length
              = c * prodRange (n - cs.length) cs.length
                - prodRange (n - cs.length) cs.length :=
            Nat.sub_one_mul c (prodRange (n - cs.length) cs.length)
          have h2 : prodRange (n - cs.length) cs.length
              ≤ c * prodRange (n - cs.length) cs.length :=
            Nat.le_mul_of_pos_left _ (by omega)
          omega

theorem decMS_append_last : ∀ (xs : List Nat) (n c : Nat), c ≠ 0 →
    decMS n (xs ++ [c]) = some (xs ++ [c - 1]) := by
  intro xs
  induction xs with
  | nil =>
    intro n c hc
    simp [decMS, hc, allMax_zero]
  | cons x xs ih =>
    intro n c hc
    show decMS n (x :: (xs ++ [c])) = _
    simp only [decMS]
    rw [ih (n - 1) c hc]
    simp

end Permut

namespace Permut

/-! Structure of the decoded `indices` vector. -/

theorem cons_eraseIdx_perm {l : List Nat} {j : Nat} (hj : j < l.length) :
    (l.getD j 0 :: l.eraseIdx j).Perm l := by
  have hsplit : l = l.take j ++ l[j] :: l.drop (j + 1) := by
    conv_lhs => rw [← List.take_append_drop j l]
    rw [List.drop_eq_getElem_cons hj]
  rw [List.getD_eq_getElem l 0 hj, List.eraseIdx_eq_take_drop_succ]
  conv_rhs => rw [hsplit]
  exact List.perm_middle.symm

theorem build_eq_picks_append : ∀ (cs avail : List Nat),
    buildIndices avail cs = picks avail cs ++ availAfter avail cs := by
  intro cs
  induction cs with
  | nil => intro avail; rfl
  | cons c cs ih =>
    intro avail
    show _ :: buildIndices _ cs = (_ :: picks _ cs) ++ availAfter _ (c :: cs)
    rw [List.cons_append, ih]
    rfl

theorem picks_length : ∀ (cs avail : List Nat), (picks avail cs).length = cs.length := by
  intro cs
  induction cs with
  | nil => intro avail; rfl
  | cons c cs ih => intro avail; simp [picks, ih]

theorem build_take (cs avail : List Nat) :
    (buildIndices avail cs).take cs.length = picks avail cs := by
  rw [build_eq_picks_append, ← picks_length cs avail]
  exact List.take_left _ _

theorem availAfter_length : ∀ (cs avail : List Nat),
    DigitsOk avail.length cs → cs.length ≤ avail.length →
    (availAfter avail cs).length = avail.length - cs.length := by
  intro cs
  induction cs with
  | nil => intro avail _ _; simp [availAfter]
  | cons c cs ih =>
    intro avail hok hlen
    simp only [List.length_cons] at hlen
    obtain ⟨hc, hok2⟩ := DigitsOk_cons.mp hok
    have hj : avail.length - 1 - c < avail.length := by omega
    show (availAfter (avail.eraseIdx (avail.length - 1 - c)) cs).length = _
    rw [ih _ (by rwa [length_eraseIdx_lt hj]) (by rw [length_eraseIdx_lt hj]; omega)]
    rw [length_eraseIdx_lt hj]
    simp only [List.length_cons]
    omega

theorem buildIndices_length (cs avail : List Nat)
    (hok : DigitsOk avail.length cs) (hlen : cs.length ≤ avail.length) :
    (buildIndices avail cs).length = avail.length := by
  rw [build_eq_picks_append, List.length_append, picks_length,
    availAfter_length cs avail hok hlen]
  omega

theorem buildIndices_perm : ∀ (cs avail : List Nat),
    DigitsOk avail.length cs → cs.length ≤ avail.length →
    (buildIndices avail cs).Perm avail := by
  intro cs
  induction cs with
  | nil => intro avail _ _; exact List.Perm.refl _
  | cons c cs ih =>
    intro avail hok hlen
    simp only [List.length_cons] at hlen
    obtain ⟨hc, hok2⟩ := DigitsOk_cons.mp hok
    have hj : avail.length - 1 - c < avail.length := by omega
    show (avail.getD (avail.length - 1 - c) 0 ::
      buildIndices (avail.eraseIdx (avail.length - 1 - c)) cs).Perm avail
    have h1 := ih (avail.eraseIdx (avail.length - 1 - c))
      (by rwa [length_eraseIdx_lt hj]) (by rw [length_eraseIdx_lt hj]; omega)
    exact ((h1.cons _).trans (cons_eraseIdx_perm hj))

theorem picks_subset : ∀ (cs avail : List Nat),
    DigitsOk avail.length cs → cs.length ≤ avail.length →
    ∀ x ∈ picks avail cs, x ∈ avail := by
  intro cs
  induction cs with
  | nil => intro avail _ _ x hx; simp [picks] at hx
  | cons c cs ih =>
    intro avail hok hlen x hx
    simp only [List.length_cons] at hlen
    obtain ⟨hc, hok2⟩ := DigitsOk_cons.mp hok
    have hj : avail.length - 1 - c < avail.length := by omega
    rcases List.mem_cons.mp hx with h1 | h1
    · rw [h1, List.getD_eq_getElem avail 0 hj]
      exact List.getElem_mem hj
    · have := ih (avail.eraseIdx (avail.length - 1 - c))
        (by rwa [length_eraseIdx_lt hj]) (by rw [length_eraseIdx_lt hj]; omega) x h1
      exact (List.eraseIdx_sublist avail _).subset this

theorem picks_nodup : ∀ (cs avail : List Nat), avail.Nodup →
    DigitsOk avail.length cs → cs.length ≤ avail.length →
    (picks avail cs).Nodup := by
  intro cs
  induction cs with
  | nil => intro avail _ _ _; simp [picks]
  | cons c cs ih =>
    intro avail hnd hok hlen
    simp only [List.length_cons] at hlen
    obtain ⟨hc, hok2⟩ := DigitsOk_cons.mp hok
    have hj : avail.length - 1 - c < avail.length := by omega
    have hperm := (cons_eraseIdx_perm (l := avail) hj).symm
    have hnd2 := hperm.nodup hnd
    obtain ⟨hhead, herase⟩ := List.nodup_cons.mp hnd2
    show ((avail.getD (avail.length - 1 - c) 0) ::
      picks (avail.eraseIdx (avail.length - 1 - c)) cs).Nodup
    refine List.nodup_cons.mpr ⟨?_, ?_⟩
    · intro hmem
      exact hhead (picks_subset cs _ (by rwa [length_eraseIdx_lt hj])
        (by rw [length_eraseIdx_lt hj]; omega) _ hmem)
    · exact ih _ herase (by rwa [length_eraseIdx_lt hj])
        (by rw [length_eraseIdx_lt hj]; omega)

theorem build_allMax : ∀ (m : Nat) (avail : List Nat), m ≤ avail.length →
    buildIndices avail (allMax avail.length m) = avail := by
  intro m
  induction m with
  | zero => intro avail _; rw [allMax_zero]; rfl
  | succ m ih =>
    intro avail hm
    rw [allMax_succ (by omega)]
    cases avail with
    | nil => simp at hm
    | cons a rest =>
      show (a :: rest).getD ((a :: rest).length - 1 - ((a :: rest).length - 1)) 0 ::
        buildIndices ((a :: rest).eraseIdx ((a :: rest).length - 1 - ((a :: rest).length - 1)))
          (allMax ((a :: rest).length - 1) m) = a :: rest
      rw [show (a :: rest).length - 1 - ((a :: rest).length - 1) = 0 by omega]
      rw [show (a :: rest).length - 1 = rest.length by simp]
      show a :: buildIndices rest (allMax rest.length m) = a :: rest
      rw [ih rest (by simp at hm; omega)]

end Permut

namespace Permut

theorem picks_inj : ∀ (cs1 cs2 avail : List Nat), avail.Nodup →
    DigitsOk avail.length cs1 → DigitsOk avail.length cs2 →
    cs1.length ≤ avail.length → cs2.length ≤ avail.length →
    picks avail cs1 = picks avail cs2 → cs1 = cs2 := by
  intro cs1
  induction cs1 with
  | nil =>
    intro cs2 avail _ _ _ _ _ heq
    have := picks_length cs2 avail
    rw [← heq] at this
    simp [picks] at this
    exact (List.length_eq_zero.mp this.symm).symm
  | cons c1 t1 ih =>
    intro cs2 avail hnd hok1 hok2 hlen1 hlen2 heq
    cases cs2 with
    | nil =>
      have := congrArg List.length heq
      simp [picks, picks_length] at this
    | cons c2 t2 =>
      simp only [List.length_cons] at hlen1 hlen2
      obtain ⟨hc1, hok1t⟩ := DigitsOk_cons.mp hok1
      obtain ⟨hc2, hok2t⟩ := DigitsOk_cons.mp hok2
      have hj1 : avail.length - 1 - c1 < avail.length := by omega
      have hj2 : avail.length - 1 - c2 < avail.length := by omega
      have hh : avail.getD (avail.length - 1 - c1) 0
          = avail.getD (avail.length - 1 - c2) 0 := by
        have := congrArg (List.getD · 0 0) heq
        simpa [picks] using this
      rw [List.getD_eq_getElem avail 0 hj1, List.getD_eq_getElem avail 0 hj2] at hh
      have hjeq : avail.length - 1 - c1 = avail.length - 1 - c2 :=
        (List.Nodup.getElem_inj_iff hnd).mp hh
      have hceq : c1 = c2 := by omega
      subst hceq
      have htail : picks (avail.eraseIdx (avail.length - 1 - c1)) t1
          = picks (avail.eraseIdx (avail.length - 1 - c1)) t2 := by
        have := congrArg List.tail heq
        simpa [picks] using this
      have herased := (List.eraseIdx_sublist avail (avail.length - 1 - c1)).nodup hnd
      have := ih t2 _ herased
        (by rwa [length_eraseIdx_lt hj1])
        (by rwa [length_eraseIdx_lt hj1])
        (by rw [length_eraseIdx_lt hj1]; omega)
        (by rw [length_eraseIdx_lt hj1]; omega)
        htail
      rw [this]

theorem picks_allMax_append : ∀ (xs ys ds : List Nat) (b : Nat),
    b = xs.length + ys.length →
    picks (xs ++ ys) (allMax b xs.length ++ ds) = xs ++ picks ys ds := by
  intro xs
  induction xs with
  | nil => intro ys ds b _; simp [allMax_zero]
  | cons x xs ih =>
    intro ys ds b hb
    simp only [List.length_cons] at hb ⊢
    rw [allMax_succ (by omega)]
    rw [List.cons_append]
    show (x :: (xs ++ ys)).getD ((x :: (xs ++ ys)).length - 1 - (b - 1)) 0 ::
      picks ((x :: (xs ++ ys)).eraseIdx ((x :: (xs ++ ys)).length - 1 - (b - 1)))
        (allMax (b - 1) xs.length ++ ds) = x :: (xs ++ picks ys ds)
    have hidx : (x :: (xs ++ ys)).length - 1 - (b - 1) = 0 := by
      simp only [List.length_cons, List.length_append]
      omega
    rw [hidx]
    show x :: picks (xs ++ ys) (allMax (b - 1) xs.length ++ ds) = _
    rw [ih ys ds (b - 1) (by omega)]

theorem listSwap_cons (x : Nat) (l : List Nat) (a b : Nat) :
    listSwap (x :: l) (a + 1) (b + 1) = x :: listSwap l a b := rfl

theorem advanceGo_cons : ∀ (j : Nat) (n x c : Nat) (ind cyc : List Nat),
    (∀ i, i < j → cyc.getD i 0 + i + 2 ≤ n) →
    advanceGo n (j + 1) (x :: ind) (c :: cyc) =
      (let r := advanceGo (n - 1) j ind cyc
       if r.2.2 then advanceGo n 1 (x :: r.1) (c :: r.2.1)
       else (x :: r.1, c :: r.2.1, false)) := by
  intro j
  induction j with
  | zero =>
    intro n x c ind cyc _
    rfl
  | succ j ih =>
    intro n x c ind cyc hb
    show (if (c :: cyc).getD (j + 1) 0 = 0 then
        advanceGo n (j + 1) ((x :: ind).take (j + 1) ++ rot1 ((x :: ind).drop (j + 1)))
          ((c :: cyc).set (j + 1) (n - (j + 1) - 1))
      else
        (listSwap (x :: ind) (j + 1) (n - (c :: cyc).getD (j + 1) 0),
          (c :: cyc).set (j + 1) ((c :: cyc).getD (j + 1) 0 - 1), false)) = _
    rw [List.getD_cons_succ]
    by_cases hd : cyc.getD j 0 = 0
    · rw [if_pos hd]
      have h1 : (x :: ind).take (j + 1) ++ rot1 ((x :: ind).drop (j + 1))
          = x :: (ind.take j ++ rot1 (ind.drop j)) := rfl
      have h2 : (c :: cyc).set (j + 1) (n - (j + 1) - 1)
          = c :: cyc.set j (n - 1 - j - 1) := by
        rw [show n - (j + 1) - 1 = n - 1 - j - 1 by omega]
        rfl
      rw [h1, h2]
      have hbound : ∀ i, i < j → (cyc.set j (n - 1 - j - 1)).getD i 0 + i + 2 ≤ n := by
        intro i hi
        rw [getD_set_ne _ _ _ _ _ (by omega)]
        exact hb i (by omega)
      rw [ih n x c (ind.take j ++ rot1 (ind.drop j)) (cyc.set j (n - 1 - j - 1)) hbound]
      have hrhs : advanceGo (n - 1) (j + 1) ind cyc
          = advanceGo (n - 1) j (ind.take j ++ rot1 (ind.drop j))
            (cyc.set j (n - 1 - j - 1)) := by
        rw [advanceGo, if_pos hd]
      rw [hrhs]
    · rw [if_neg hd]
      have hbj := hb j (by omega)
      have hnd : n - cyc.getD j 0 = ((n - 1) - cyc.getD j 0) + 1 := by omega
      rw [hnd, listSwap_cons]
      have h2 : (c :: cyc).set (j + 1) (cyc.getD j 0 - 1)
          = c :: cyc.set j (cyc.getD j 0 - 1) := rfl
      rw [h2]
      have hrhs : advanceGo (n - 1) (j + 1) ind cyc
          = (listSwap ind j ((n - 1) - cyc.getD j 0),
              cyc.set j (cyc.getD j 0 - 1), false) := by
        rw [advanceGo, if_neg hd]
      rw [hrhs]
      rfl

end Permut

namespace Permut

theorem advanceGo_build : ∀ (cs avail : List Nat),
    DigitsOk avail.length cs → cs.length ≤ avail.length →
    advanceGo avail.length cs.length (buildIndices avail cs) cs =
      match decMS avail.length cs with
      | some cs2 => (buildIndices avail cs2, cs2, false)
      | none => (avail, allMax avail.length cs.length, true) := by
  intro cs
  induction cs with
  | nil =>
    intro avail _ _
    simp [decMS, advanceGo, buildIndices, allMax_zero]
  | cons c cs ih =>
    intro avail hok hlen
    simp only [List.length_cons] at hlen
    obtain ⟨hc, hok2⟩ := DigitsOk_cons.mp hok
    have hj : avail.length - 1 - c < avail.length := by omega
    have hlen' : (avail.eraseIdx (avail.length - 1 - c)).length = avail.length - 1 :=
      length_eraseIdx_lt hj
    have hbound : ∀ i, i < cs.length → cs.getD i 0 + i + 2 ≤ avail.length := by
      intro i hi
      have := hok2 i hi
      omega
    show advanceGo avail.length (cs.length + 1)
      (avail.getD (avail.length - 1 - c) 0 ::
        buildIndices (avail.eraseIdx (avail.length - 1 - c)) cs) (c :: cs) = _
    rw [advanceGo_cons cs.length avail.length _ c _ cs hbound]
    have ihh := ih (avail.eraseIdx (avail.length - 1 - c))
      (by rwa [hlen']) (by rw [hlen']; omega)
    rw [hlen'] at ihh
    cases hdec : decMS (avail.length - 1) cs with
    | some cs2 =>
      rw [hdec] at ihh
      rw [ihh]
      show (avail.getD (avail.length - 1 - c) 0 ::
          buildIndices (avail.eraseIdx (avail.length - 1 - c)) cs2, c :: cs2, false) = _
      have hout : decMS avail.length (c :: cs) = some (c :: cs2) := by
        simp only [decMS]
        rw [hdec]
      rw [hout]
      rfl
    | none =>
      rw [hdec] at ihh
      rw [ihh]
      show advanceGo avail.length 1
        (avail.getD (avail.length - 1 - c) 0 :: avail.eraseIdx (avail.length - 1 - c))
        (c :: allMax (avail.length - 1) cs.length) = _
      by_cases hc0 : c = 0
      · subst hc0
        have hout : decMS avail.length (0 :: cs) = none := by
          simp only [decMS]
          rw [hdec]
          simp
        rw [hout]
        show advanceGo avail.length 0
          (rot1 (avail.getD (avail.length - 1 - 0) 0 ::
            avail.eraseIdx (avail.length - 1 - 0)))
          ((0 :: allMax (avail.length - 1) cs.length).set 0 (avail.length - 0 - 1)) = _
        show (rot1 (avail.getD (avail.length - 1 - 0) 0 ::
            avail.eraseIdx (avail.length - 1 - 0)),
          (avail.length - 0 - 1) :: allMax (avail.length - 1) cs.length, true) = _
        have h1 : rot1 (avail.getD (avail.length - 1 - 0) 0 ::
            avail.eraseIdx (avail.length - 1 - 0))
            = avail.eraseIdx (avail.length - 1) ++ [avail.getD (avail.length - 1) 0] := by
          show avail.eraseIdx (avail.length - 1 - 0) ++
            [avail.getD (avail.length - 1 - 0) 0] = _
          rw [show avail.length - 1 - 0 = avail.length - 1 by omega]
        rw [h1, eraseIdx_last_append avail (by intro h; subst h; simp at hj)]
        have h2 : (avail.length - 0 - 1) :: allMax (avail.length - 1) cs.length
            = allMax avail.length (cs.length + 1) := by
          rw [allMax_succ (by omega)]
          rw [show avail.length - 0 - 1 = avail.length - 1 by omega]
        rw [h2]
        rfl
      · have hout : decMS avail.length (c :: cs) =
            some ((c - 1) :: allMax (avail.length - 1) cs.length) := by
          simp only [decMS]
          rw [hdec]
          simp [hc0]
        rw [hout]
        have hstep : advanceGo avail.length 1
            (avail.getD (avail.length - 1 - c) 0 :: avail.eraseIdx (avail.length - 1 - c))
            (c :: allMax (avail.length - 1) cs.length)
            = (listSwap (avail.getD (avail.length - 1 - c) 0 ::
                avail.eraseIdx (avail.length - 1 - c)) 0 (avail.length - c),
              (c - 1) :: allMax (avail.length - 1) cs.length, false) := by
          rw [advanceGo]
          rw [show (c :: allMax (avail.length - 1) cs.length).getD 0 0 = c from rfl]
          rw [if_neg hc0]
          rfl
        rw [hstep]
        show (listSwap (avail.getD (avail.length - 1 - c) 0 ::
            avail.eraseIdx (avail.length - 1 - c)) 0 (avail.length - c),
          (c - 1) :: allMax (avail.length - 1) cs.length, false)
          = (buildIndices avail ((c - 1) :: allMax (avail.length - 1) cs.length),
            (c - 1) :: allMax (avail.length - 1) cs.length, false)
        have hj1 : avail.length - c = (avail.length - 1 - c) + 1 := by omega
        have hj1lt : avail.length - 1 - c + 1 < avail.length := by omega
        have hswap : listSwap (avail.getD (avail.length - 1 - c) 0 ::
            avail.eraseIdx (avail.length - 1 - c)) 0 (avail.length - c)
            = avail.getD (avail.length - 1 - c + 1) 0 ::
              avail.eraseIdx (avail.length - 1 - c + 1) := by
          rw [hj1]
          show ((avail.getD (avail.length - 1 - c) 0 ::
              avail.eraseIdx (avail.length - 1 - c)).set 0
              ((avail.getD (avail.length - 1 - c) 0 ::
                avail.eraseIdx (avail.length - 1 - c)).getD (avail.length - 1 - c + 1) 0)).set
              (avail.length - 1 - c + 1)
              ((avail.getD (avail.length - 1 - c) 0 ::
                avail.eraseIdx (avail.length - 1 - c)).getD 0 0) = _
          rw [show ((avail.getD (avail.length - 1 - c) 0 ::
              avail.eraseIdx (avail.length - 1 - c)).getD (avail.length - 1 - c + 1) 0)
              = (avail.eraseIdx (avail.length - 1 - c)).getD (avail.length - 1 - c) 0
            from rfl]
          rw [eraseIdx_getD_succ avail _ hj1lt]
          show avail.getD (avail.length - 1 - c + 1) 0 ::
            ((avail.eraseIdx (avail.length - 1 - c)).set (avail.length - 1 - c)
              (avail.getD (avail.length - 1 - c) 0)) = _
          rw [set_eraseIdx avail _ hj1lt]
        have hbuild : buildIndices avail ((c - 1) :: allMax (avail.length - 1) cs.length)
            = avail.getD (avail.length - 1 - c + 1) 0 ::
              avail.eraseIdx (avail.length - 1 - c + 1) := by
          show avail.getD (avail.length - 1 - (c - 1)) 0 ::
            buildIndices (avail.eraseIdx (avail.length - 1 - (c - 1)))
              (allMax (avail.length - 1) cs.length) = _
          rw [show avail.length - 1 - (c - 1) = avail.length - 1 - c + 1 by omega]
          have herl : (avail.eraseIdx (avail.length - 1 - c + 1)).length
              = avail.length - 1 := length_eraseIdx_lt hj1lt
          have := build_allMax cs.length (avail.eraseIdx (avail.length - 1 - c + 1))
            (by rw [herl]; omega)
          rw [herl] at this
          rw [this]
        rw [hswap, hbuild]

end Permut

namespace Permut

/-- Well-formedness of a mid-sequence closed state for parameters `(n, k)`:
`cycles` is a bounded digit list of length `k` and `indices` is its decode. -/
def OngoingWF (n k : Nat) (ind cyc : List Nat) : Prop :=
  cyc.length = k ∧ DigitsOk n cyc ∧ ind = buildIndices (List.range n) cyc

theorem advance_start {n k : Nat} (h : k ≤ n) :
    CompleteState.advance (.Start n k) = .Ongoing (List.range n) (allMax n k) := by
  show CompleteState.Ongoing (List.range n) ((List.range' (n - k) (n - (n - k))).reverse) = _
  rw [init_cycles_eq h]

theorem OngoingWF_init {n k : Nat} (h : k ≤ n) :
    OngoingWF n k (List.range n) (allMax n k) := by
  refine ⟨allMax_length n k, DigitsOk_allMax h, ?_⟩
  have := build_allMax k (List.range n) (by rw [List.length_range]; exact h)
  rw [List.length_range] at this
  exact this.symm

theorem advance_ongoing {n k : Nat} {ind cyc : List Nat} (hkn : k ≤ n)
    (hwf : OngoingWF n k ind cyc) :
    CompleteState.advance (.Ongoing ind cyc) =
      match decMS n cyc with
      | some cyc2 => .Ongoing (buildIndices (List.range n) cyc2) cyc2
      | none => .Start n k := by
  obtain ⟨hl, hok, hind⟩ := hwf
  have hok' : DigitsOk (List.range n).length cyc := by rwa [List.length_range]
  have hll : cyc.length ≤ (List.range n).length := by rw [List.length_range]; omega
  have hbl : ind.length = n := by
    rw [hind, buildIndices_length cyc (List.range n) hok' hll, List.length_range]
  show (let r := Permut.advance ind cyc
    if r.2.2 then CompleteState.Start r.1.length r.2.1.length
    else CompleteState.Ongoing r.1 r.2.1) = _
  have hadv : Permut.advance ind cyc =
      match decMS n cyc with
      | some cs2 => (buildIndices (List.range n) cs2, cs2, false)
      | none => (List.range n, allMax n k, true) := by
    show advanceGo ind.length cyc.length ind cyc = _
    rw [hbl, hind, hl]
    have := advanceGo_build cyc (List.range n) hok' hll
    rw [List.length_range] at this
    rw [hl] at this
    exact this
  rw [hadv]
  cases hdec : decMS n cyc with
  | some cs2 => rfl
  | none =>
    show CompleteState.Start (List.range n).length (allMax n k).length = _
    rw [List.length_range, allMax_length]

theorem advanceN_succ_right : ∀ (t : Nat) (c : CompleteState),
    CompleteState.advanceN c (t + 1) = (CompleteState.advanceN c t).advance := by
  intro t
  induction t with
  | zero => intro c; rfl
  | succ t ih =>
    intro c
    show CompleteState.advanceN c.advance (t + 1) = _
    rw [ih c.advance]
    rfl

theorem advanceN_add : ∀ (a : Nat) (c : CompleteState) (b : Nat),
    CompleteState.advanceN c (a + b) = CompleteState.advanceN (CompleteState.advanceN c a) b := by
  intro a
  induction a with
  | zero =>
    intro c b
    rw [Nat.zero_add]
    rfl
  | succ a ih =>
    intro c b
    rw [show a + 1 + b = (a + b) + 1 by omega]
    show CompleteState.advanceN c.advance (a + b) = _
    rw [ih c.advance]
    rfl

theorem ffNat_eq_prodRange {n k : Nat} (h : k ≤ n) :
    ffNat n k = prodRange (n - k + 1) k := by
  rw [ffNat, if_neg (by omega)]

theorem ffNat_pos {n k : Nat} (h : k ≤ n) : 1 ≤ ffNat n k := by
  rw [ffNat_eq_prodRange h]
  exact prodRange_pos (by omega) k

theorem advanceN_start_spec {n k : Nat} (hkn : k ≤ n) :
    ∀ t, 1 ≤ t → t ≤ ffNat n k →
    ∃ cyc, CompleteState.advanceN (.Start n k) t
        = .Ongoing (buildIndices (List.range n) cyc) cyc
      ∧ cyc.length = k ∧ DigitsOk n cyc ∧ mval n cyc = ffNat n k - t := by
  intro t
  induction t with
  | zero => intro h _; omega
  | succ t ih =>
    intro _ hle
    cases Nat.eq_zero_or_pos t with
    | inl ht0 =>
      subst ht0
      refine ⟨allMax n k, ?_, allMax_length n k, DigitsOk_allMax hkn, ?_⟩
      · show (CompleteState.advance (.Start n k)).advanceN 0 = _
        show CompleteState.advance (.Start n k) = _
        rw [advance_start hkn]
        have := (OngoingWF_init hkn).2.2
        rw [← this]
      · rw [mval_allMax k n hkn, ffNat_eq_prodRange hkn]
    | inr htpos =>
      obtain ⟨cyc, hst, hl, hok, hv⟩ := ih htpos (by omega)
      have hvpos : 0 < mval n cyc := by
        have := ffNat_pos hkn
        omega
      have hnz : decMS n cyc ≠ none := by
        intro hnone
        have hall := (decMS_none_iff cyc n).mp hnone
        have := mval_zero_of_all_zero cyc n hall
        omega
      cases hdec : decMS n cyc with
      | none => exact absurd hdec hnz
      | some cyc2 =>
        obtain ⟨hl2, hok2, hv2⟩ := decMS_some_spec cyc n cyc2 (by omega) hok hdec
        refine ⟨cyc2, ?_, by omega, hok2, by omega⟩
        rw [advanceN_succ_right, hst]
        rw [advance_ongoing hkn ⟨hl, hok, rfl⟩]
        rw [hdec]

theorem advanceN_start_wrap {n k : Nat} (hkn : k ≤ n) :
    CompleteState.advanceN (.Start n k) (ffNat n k + 1) = .Start n k := by
  obtain ⟨cyc, hst, hl, hok, hv⟩ :=
    advanceN_start_spec hkn (ffNat n k) (ffNat_pos hkn) (Nat.le_refl _)
  rw [advanceN_succ_right, hst]
  rw [advance_ongoing hkn ⟨hl, hok, rfl⟩]
  have hall : decMS n cyc = none := by
    apply (decMS_none_iff cyc n).mpr
    apply (mval_eq_zero_iff cyc n (by omega)).mp
    omega
  rw [hall]

theorem advanceN_start_periodic {n k : Nat} (hkn : k ≤ n) (b : Nat) :
    CompleteState.advanceN (.Start n k) (ffNat n k + 1 + b)
      = CompleteState.advanceN (.Start n k) b := by
  rw [advanceN_add, advanceN_start_wrap hkn]

end Permut

namespace Permut

/-! Characterisation of `CompleteState::remaining`. -/

theorem USIZE_pos : 0 < USIZE := by
  rw [USIZE]
  positivity

theorem foldl_mul_ge : ∀ (l : List Nat) (acc : Nat), (∀ x ∈ l, 1 ≤ x) →
    acc ≤ l.foldl (· * ·) acc := by
  intro l
  induction l with
  | nil => intro acc _; exact Nat.le_refl acc
  | cons x xs ih =>
    intro acc hf
    show acc ≤ xs.foldl (· * ·) (acc * x)
    calc acc ≤ acc * x := Nat.le_mul_of_pos_right acc (hf x (by simp))
    _ ≤ xs.foldl (· * ·) (acc * x) := ih (acc * x) (fun y hy => hf y (by simp [hy]))

theorem foldlM_checked_mul : ∀ (l : List Nat) (acc : Nat), acc < USIZE →
    (∀ x ∈ l, 1 ≤ x) →
    l.foldlM checked_mul acc =
      (if l.foldl (· * ·) acc < USIZE then some (l.foldl (· * ·) acc) else none) := by
  intro l
  induction l with
  | nil =>
    intro acc hacc _
    simp [List.foldlM, hacc]
  | cons x xs ih =>
    intro acc hacc hf
    rw [List.foldlM_cons]
    show (checked_mul acc x) >>= (fun b2 => xs.foldlM checked_mul b2) = _
    by_cases hm : acc * x < USIZE
    · rw [show checked_mul acc x = some (acc * x) from if_pos hm]
      show xs.foldlM checked_mul (acc * x) = _
      rw [ih (acc * x) hm (fun y hy => hf y (by simp [hy]))]
      rfl
    · rw [show checked_mul acc x = none from if_neg hm]
      show none = _
      have hge : acc * x ≤ xs.foldl (· * ·) (acc * x) :=
        foldl_mul_ge xs (acc * x) (fun y hy => hf y (by simp [hy]))
      rw [if_neg (by show ¬ xs.foldl (· * ·) (acc * x) < USIZE; omega)]

theorem remaining_start_eq (n k : Nat) :
    CompleteState.remaining (.Start n k)
      = if ffNat n k < USIZE then some (ffNat n k) else none := by
  by_cases h : n < k
  · show (if n < k then some 0 else _) = _
    rw [if_pos h]
    rw [show ffNat n k = 0 from if_pos h]
    rw [if_pos USIZE_pos]
  · show (if n < k then some 0 else (List.range' (n - k + 1) k).foldlM checked_mul 1) = _
    rw [if_neg h]
    rw [foldlM_checked_mul (List.range' (n - k + 1) k) 1 (by rw [USIZE]; norm_num) ?hfac]
    case hfac =>
      intro x hx
      have := List.mem_range'_1.mp hx
      omega
    rw [show ffNat n k = prodRange (n - k + 1) k from if_neg h]
    rfl

theorem enumFrom_foldl_horner : ∀ (cs : List Nat) (n j acc : Nat), j + cs.length ≤ n →
    (List.enumFrom j cs).foldl (fun a p => a * (n - p.1) + p.2) acc
      = acc * prodRange (n - j - cs.length + 1) cs.length + mval (n - j) cs := by
  intro cs
  induction cs with
  | nil =>
    intro n j acc _
    simp [prodRange_zero, mval_nil]
  | cons c cs ih =>
    intro n j acc hle
    simp only [List.length_cons] at hle
    show (List.enumFrom (j + 1) cs).foldl (fun a p => a * (n - p.1) + p.2)
      (acc * (n - j) + c) = _
    rw [ih n (j + 1) (acc * (n - j) + c) (by omega)]
    rw [mval_cons]
    have e1 : n - (j + 1) - cs.length + 1 = n - j - cs.length := by omega
    have e2 : n - (j + 1) = n - j - 1 := by omega
    rw [e1, e2]
    have e3 : n - j - (c :: cs).length + 1 = n - j - cs.length := by
      simp only [List.length_cons]
      omega
    rw [e3]
    have e4 : prodRange (n - j - cs.length) ((c :: cs).length)
        = prodRange (n - j - cs.length) cs.length * (n - j) := by
      show prodRange (n - j - cs.length) (cs.length + 1) = _
      rw [prodRange_succ_last]
      congr 1
      omega
    rw [e4]
    have e5 : n - j - 1 - cs.length + 1 = n - j - cs.length := by omega
    have hmul : (acc * (n - j) + c) * prodRange (n - j - cs.length) cs.length
        = acc * (prodRange (n - j - cs.length) cs.length * (n - j))
          + c * prodRange (n - j - cs.length) cs.length := by ring
    rw [hmul]
    have e6 : n - j - cs.length = n - j - 1 - cs.length + 1 := by omega
    omega

theorem enumFrom_foldl_ge : ∀ (cs : List Nat) (n j acc : Nat), j + cs.length ≤ n →
    acc ≤ (List.enumFrom j cs).foldl (fun a p => a * (n - p.1) + p.2) acc := by
  intro cs
  induction cs with
  | nil => intro n j acc _; exact Nat.le_refl acc
  | cons c cs ih =>
    intro n j acc hle
    simp only [List.length_cons] at hle
    show acc ≤ (List.enumFrom (j + 1) cs).foldl (fun a p => a * (n - p.1) + p.2)
      (acc * (n - j) + c)
    calc acc ≤ acc * (n - j) + c := by
          have : acc ≤ acc * (n - j) := Nat.le_mul_of_pos_right acc (by omega)
          omega
    _ ≤ _ := ih n (j + 1) _ (by omega)

theorem enumFrom_foldlM_checked : ∀ (cs : List Nat) (n j acc : Nat),
    j + cs.length ≤ n → acc < USIZE →
    (List.enumFrom j cs).foldlM
      (fun a p => (checked_mul a (n - p.1)).bind fun c2 => checked_add c2 p.2) acc
      = (if (List.enumFrom j cs).foldl (fun a p => a * (n - p.1) + p.2) acc < USIZE
          then some ((List.enumFrom j cs).foldl (fun a p => a * (n - p.1) + p.2) acc)
          else none) := by
  intro cs
  induction cs with
  | nil =>
    intro n j acc _ hacc
    simp [List.foldlM, hacc]
  | cons c cs ih =>
    intro n j acc hle hacc
    simp only [List.length_cons] at hle
    show ((checked_mul acc (n - j)).bind fun c2 => checked_add c2 c) >>=
      (fun b2 => (List.enumFrom (j + 1) cs).foldlM
        (fun a p => (checked_mul a (n - p.1)).bind fun c2 => checked_add c2 p.2) b2) = _
    have hfoldcons : (List.enumFrom j (c :: cs)).foldl (fun a p => a * (n - p.1) + p.2) acc
        = (List.enumFrom (j + 1) cs).foldl (fun a p => a * (n - p.1) + p.2)
          (acc * (n - j) + c) := rfl
    by_cases hm : acc * (n - j) < USIZE
    · rw [show checked_mul acc (n - j) = some (acc * (n - j)) from if_pos hm]
      simp only [Option.some_bind]
      by_cases ha : acc * (n - j) + c < USIZE
      · rw [show checked_add (acc * (n - j)) c = some (acc * (n - j) + c) from if_pos ha]
        show (List.enumFrom (j + 1) cs).foldlM
          (fun a p => (checked_mul a (n - p.1)).bind fun c2 => checked_add c2 p.2)
          (acc * (n - j) + c) = _
        rw [ih n (j + 1) (acc * (n - j) + c) (by omega) ha]
        rw [hfoldcons]
      · rw [show checked_add (acc * (n - j)) c = none from if_neg ha]
        show none = _
        have hge := enumFrom_foldl_ge cs n (j + 1) (acc * (n - j) + c) (by omega)
        rw [hfoldcons]
        rw [if_neg (by omega)]
    · rw [show checked_mul acc (n - j) = none from if_neg hm]
      show none = _
      have hge := enumFrom_foldl_ge cs n (j + 1) (acc * (n - j) + c) (by omega)
      have : acc * (n - j) ≤ acc * (n - j) + c := by omega
      rw [hfoldcons]
      rw [if_neg (by omega)]

theorem remaining_ongoing_eq (ind cyc : List Nat) (h : cyc.length ≤ ind.length) :
    CompleteState.remaining (.Ongoing ind cyc)
      = if mval ind.length cyc < USIZE
        then some (mval ind.length cyc) else none := by
  show (List.enumFrom 0 cyc).foldlM
    (fun acc p => (checked_mul acc (ind.length - p.1)).bind fun c => checked_add c p.2)
    0 = _
  rw [enumFrom_foldlM_checked cyc ind.length 0 0 (by omega) USIZE_pos]
  rw [enumFrom_foldl_horner cyc ind.length 0 0 (by omega)]
  rw [Nat.zero_mul, Nat.zero_add, Nat.sub_zero]

end Permut

namespace Permut

/-! Engine-level state characterisation. -/

theorem stepN_succ_right {α : Type} : ∀ (t : Nat) (p : Permutations α),
    p.stepN (t + 1) = (p.stepN t).step := by
  intro t
  induction t with
  | zero => intro p; rfl
  | succ t ih =>
    intro p
    show p.step.stepN (t + 1) = _
    rw [ih p.step]
    rfl

theorem stepN_add {α : Type} : ∀ (a : Nat) (p : Permutations α) (b : Nat),
    p.stepN (a + b) = (p.stepN a).stepN b := by
  intro a
  induction a with
  | zero =>
    intro p b
    rw [Nat.zero_add]
    rfl
  | succ a ih =>
    intro p b
    rw [show a + 1 + b = (a + b) + 1 by omega]
    show p.step.stepN (a + b) = _
    rw [ih p.step]
    rfl

theorem stepN_closed {α : Type} (buf : LazyBuffer α) (s : CompleteState) :
    ∀ t, (Permutations.mk buf (.Loaded s)).stepN t = ⟨buf, .Loaded (s.advanceN t)⟩ := by
  intro t
  induction t generalizing s with
  | zero => rfl
  | succ t ih =>
    show (Permutations.mk buf (.Loaded s)).step.stepN t = _
    show (Permutations.mk buf (.Loaded s.advance)).stepN t = _
    rw [ih s.advance]
    rfl

theorem permutations_construct {α : Type} (src : List α) (k : Nat)
    (h1 : 1 ≤ k) (h2 : k ≤ src.length) :
    permutations src k = ⟨⟨src.take k, src.drop k⟩, .Start k⟩ := by
  unfold permutations
  rw [if_neg (by omega)]
  have hpre : (LazyBuffer.new src).prefill k
      = (⟨src.take k, src.drop k⟩ : LazyBuffer α) := by
    show (⟨[] ++ src.take (k - ([] : List α).length),
      src.drop (k - ([] : List α).length)⟩ : LazyBuffer α) = _
    simp
  rw [hpre]
  rw [if_pos (by show (src.take k).length = k; rw [List.length_take]; omega)]

theorem stepN_end {α : Type} (src : List α) (k : Nat) (h : src.length < k) :
    ∀ t, (permutations src k).stepN t = ⟨⟨src, []⟩, .End⟩ := by
  have hbase : permutations src k = ⟨⟨src, []⟩, .End⟩ := by
    unfold permutations
    rw [if_neg (by omega)]
    have hpre : (LazyBuffer.new src).prefill k
        = (⟨src, []⟩ : LazyBuffer α) := by
      show (⟨[] ++ src.take (k - ([] : List α).length),
        src.drop (k - ([] : List α).length)⟩ : LazyBuffer α) = _
      simp only [List.length_nil, Nat.sub_zero, List.nil_append]
      rw [List.take_of_length_le (by omega), List.drop_eq_nil_of_le (by omega)]
    rw [hpre]
    rw [if_neg (by show ¬ src.length = k; omega)]
  intro t
  induction t with
  | zero => exact hbase
  | succ t ih =>
    rw [stepN_succ_right, ih]
    rfl

theorem stepN_k0 {α : Type} (src : List α) :
    ∀ t, (permutations src 0).stepN t
      = ⟨⟨[], src⟩, .Loaded (CompleteState.advanceN (.Start 0 0) t)⟩ := by
  have hbase : permutations src 0 = ⟨⟨[], src⟩, .Loaded (.Start 0 0)⟩ := rfl
  intro t
  rw [hbase]
  exact stepN_closed _ _ t

theorem stepN_discovery {α : Type} (src : List α) (k : Nat)
    (h1 : 1 ≤ k) (h2 : k ≤ src.length) :
    ∀ t, 1 ≤ t → t ≤ src.length - k + 1 →
    (permutations src k).stepN t
      = ⟨⟨src.take (k + t - 1), src.drop (k + t - 1)⟩, .Buffered k (k + t - 1)⟩ := by
  intro t
  induction t with
  | zero => intro h _; omega
  | succ t ih =>
    intro _ hle
    cases Nat.eq_zero_or_pos t with
    | inl ht0 =>
      subst ht0
      show (permutations src k).step = _
      rw [permutations_construct src k h1 h2]
      show (⟨⟨src.take k, src.drop k⟩, .Buffered k k⟩ : Permutations α) = _
      rw [show k + (0 + 1) - 1 = k by omega]
    | inr htpos =>
      rw [stepN_succ_right, ih htpos (by omega)]
      have hm : k + t - 1 < src.length := by omega
      show (match (LazyBuffer.mk (src.take (k + t - 1)) (src.drop (k + t - 1))).get_next with
        | (true, v2) => (⟨v2, .Buffered k ((k + t - 1) + 1)⟩ : Permutations α)
        | (false, v2) => ⟨v2, .Loaded (CompleteState.advanceN
            (.Start (k + t - 1) k) ((k + t - 1) - k + 1 + 1))⟩) = _
      have hget : (LazyBuffer.mk (src.take (k + t - 1)) (src.drop (k + t - 1))).get_next
          = (true, ⟨src.take (k + t), src.drop (k + t)⟩) := by
        show (match src.drop (k + t - 1) with
          | [] => (false, LazyBuffer.mk (src.take (k + t - 1)) (src.drop (k + t - 1)))
          | x :: rest => (true, ⟨src.take (k + t - 1) ++ [x], rest⟩)) = _
        rw [List.drop_eq_getElem_cons hm]
        have htake : src.take (k + t - 1) ++ [src[k + t - 1]] = src.take (k + t) := by
          rw [← List.concat_eq_append, List.take_concat_get src (k + t - 1) hm]
          rw [show k + t - 1 + 1 = k + t by omega]
        have hdrop : src.drop (k + t - 1 + 1) = src.drop (k + t) := by
          rw [show k + t - 1 + 1 = k + t by omega]
        show (true, (⟨src.take (k + t - 1) ++ [src[k + t - 1]],
          src.drop (k + t - 1 + 1)⟩ : LazyBuffer α)) = _
        rw [htake, hdrop]
      rw [hget]
      show (⟨⟨src.take (k + t), src.drop (k + t)⟩,
        .Buffered k ((k + t - 1) + 1)⟩ : Permutations α) = _
      rw [show (k + t - 1) + 1 = k + (t + 1) - 1 by omega]
      rw [show k + t = k + (t + 1) - 1 by omega]

theorem stepN_loaded {α : Type} (src : List α) (k : Nat)
    (h1 : 1 ≤ k) (h2 : k ≤ src.length) :
    ∀ t, src.length - k + 2 ≤ t →
    (permutations src k).stepN t
      = ⟨⟨src, []⟩, .Loaded (CompleteState.advanceN (.Start src.length k) t)⟩ := by
  have hbase : (permutations src k).stepN (src.length - k + 2)
      = ⟨⟨src, []⟩, .Loaded (CompleteState.advanceN (.Start src.length k)
          (src.length - k + 2))⟩ := by
    rw [show src.length - k + 2 = (src.length - k + 1) + 1 by omega]
    rw [stepN_succ_right]
    rw [stepN_discovery src k h1 h2 (src.length - k + 1) (by omega) (by omega)]
    rw [show k + (src.length - k + 1) - 1 = src.length by omega]
    rw [List.take_of_length_le (by omega), List.drop_eq_nil_of_le (by omega)]
    rfl
  intro t ht
  have hdecomp : t = (src.length - k + 2) + (t - (src.length - k + 2)) := by omega
  rw [hdecomp, stepN_add, hbase, stepN_closed]
  rw [← advanceN_add]

end Permut

namespace Permut

/-! Agreement of the discovery phase with the closed stepping algorithm. -/

theorem getD_append_last (xs : List Nat) (c d : Nat) :
    (xs ++ [c]).getD xs.length d = c := by
  induction xs with
  | nil => rfl
  | cons x xs ih => simpa using ih

theorem allMax_split_last {n k : Nat} (h1 : 1 ≤ k) (h2 : k ≤ n) :
    allMax n k = allMax n (k - 1) ++ [n - k] := by
  cases k with
  | zero => omega
  | succ m =>
    show (List.range' (n - (m + 1)) (m + 1)).reverse = _
    rw [List.range'_succ, List.reverse_cons]
    show _ = allMax n m ++ [n - (m + 1)]
    show _ = (List.range' (n - m) m).reverse ++ [n - (m + 1)]
    rw [show n - (m + 1) + 1 = n - m by omega]

theorem discovery_digits_len {n k s : Nat} :
    (allMax n (k - 1) ++ [n - k - s]).length = (k - 1) + 1 := by
  simp [allMax_length]

theorem discovery_digits_ok {n k s : Nat} (h1 : 1 ≤ k) (h2 : k ≤ n) :
    DigitsOk n (allMax n (k - 1) ++ [n - k - s]) := by
  intro i hi
  rw [discovery_digits_len] at hi
  rcases Nat.lt_or_ge i (k - 1) with h | h
  · rw [getD_append_left 0 (by rw [allMax_length]; exact h)]
    rw [getD_allMax (k - 1) n i (by omega) h]
    omega
  · have hieq : i = k - 1 := by omega
    subst hieq
    have hv : (allMax n (k - 1) ++ [n - k - s]).getD (k - 1) 0 = n - k - s := by
      have := getD_append_last (allMax n (k - 1)) (n - k - s) 0
      rwa [allMax_length] at this
    rw [hv]
    omega

theorem advanceN_start_discovery {n k : Nat} (h1 : 1 ≤ k) (h2 : k ≤ n) :
    ∀ s, s ≤ n - k →
    CompleteState.advanceN (.Start n k) (1 + s)
      = .Ongoing (buildIndices (List.range n) (allMax n (k - 1) ++ [n - k - s]))
                 (allMax n (k - 1) ++ [n - k - s]) := by
  intro s
  induction s with
  | zero =>
    intro _
    show CompleteState.advance (.Start n k) = _
    rw [advance_start h2]
    rw [show n - k - 0 = n - k by omega]
    rw [← allMax_split_last h1 h2]
    have := (OngoingWF_init h2).2.2
    rw [← this]
  | succ s ih =>
    intro hs
    rw [show 1 + (s + 1) = (1 + s) + 1 by omega]
    rw [advanceN_succ_right, ih (by omega)]
    rw [advance_ongoing h2 ⟨by rw [discovery_digits_len]; omega,
      discovery_digits_ok h1 h2, rfl⟩]
    have hc : n - k - s ≠ 0 := by omega
    rw [decMS_append_last (allMax n (k - 1)) n (n - k - s) hc]
    rw [show n - k - s - 1 = n - k - (s + 1) by omega]

theorem range_split {n k : Nat} (h1 : 1 ≤ k) (h2 : k ≤ n) :
    List.range n = List.range (k - 1) ++ List.range' (k - 1) (n - (k - 1)) := by
  rw [List.range_eq_range', List.range_eq_range']
  have := List.range'_append 0 (k - 1) (n - (k - 1)) 1
  rw [show 0 + 1 * (k - 1) = k - 1 by omega] at this
  rw [show n - (k - 1) + (k - 1) = n by omega] at this
  exact this.symm

theorem picks_single {ys : List Nat} {c : Nat} :
    picks ys [c] = [ys.getD (ys.length - 1 - c) 0] := rfl

theorem picks_discovery {n k s : Nat} (h1 : 1 ≤ k) (h2 : k ≤ n) (hs : s ≤ n - k) :
    picks (List.range n) (allMax n (k - 1) ++ [n - k - s])
      = List.range (k - 1) ++ [k - 1 + s] := by
  rw [range_split h1 h2]
  have hlr : (List.range (k - 1)).length = k - 1 := List.length_range (k - 1)
  have happ := picks_allMax_append (List.range (k - 1))
    (List.range' (k - 1) (n - (k - 1))) [n - k - s] n
    (by rw [hlr, List.length_range']; omega)
  rw [hlr] at happ
  rw [happ]
  congr 1
  rw [picks_single]
  have hlen2 : (List.range' (k - 1) (n - (k - 1))).length = n - (k - 1) :=
    List.length_range' _ _ _
  have hsi : (List.range' (k - 1) (n - (k - 1))).length - 1 - (n - k - s) = s := by
    rw [hlen2]; omega
  rw [hsi]
  have hslt : s < (List.range' (k - 1) (n - (k - 1))).length := by rw [hlen2]; omega
  rw [List.getD_eq_getElem _ 0 hslt, List.getElem_range']
  congr 1
  omega

theorem getD_take {α : Type} (l : List α) (m i : Nat) (d : α) (h : i < m) :
    (l.take m).getD i d = l.getD i d := by
  induction l generalizing m i with
  | nil => simp
  | cons x xs ih =>
    cases m with
    | zero => omega
    | succ m2 =>
      cases i with
      | zero => rfl
      | succ j => simpa using ih m2 j (by omega)

end Permut

namespace Permut

theorem outAt_engine_closed {α : Type} (src : List α) (k : Nat)
    (h1 : 1 ≤ k) (h2 : k ≤ src.length) (t : Nat) (ht : 1 ≤ t) :
    (permutations src k).outAt t
      = (Permutations.mk ⟨src, []⟩
          (PermutationState.Loaded (.Start src.length k))).outAt t := by
  show ((permutations src k).stepN t).state.outputIdx
    = ((Permutations.mk ⟨src, []⟩
        (PermutationState.Loaded (.Start src.length k))).stepN t).state.outputIdx
  rw [stepN_closed]
  rcases le_or_lt t (src.length - k + 1) with hcase | hcase
  · rw [stepN_discovery src k h1 h2 t ht hcase]
    have hd : CompleteState.advanceN (.Start src.length k) t
        = .Ongoing (buildIndices (List.range src.length)
            (allMax src.length (k - 1) ++ [src.length - k - (t - 1)]))
          (allMax src.length (k - 1) ++ [src.length - k - (t - 1)]) := by
      have h0 := advanceN_start_discovery h1 h2 (t - 1) (by omega)
      rw [show 1 + (t - 1) = t by omega] at h0
      exact h0
    rw [hd]
    show some (some (List.range (k - 1) ++ [k + t - 1 - 1]))
      = some (some ((buildIndices (List.range src.length)
          (allMax src.length (k - 1) ++ [src.length - k - (t - 1)])).take
        (allMax src.length (k - 1) ++ [src.length - k - (t - 1)]).length))
    rw [build_take]
    rw [picks_discovery h1 h2 (by omega)]
    rw [show k - 1 + (t - 1) = k + t - 1 - 1 by omega]
  · rw [stepN_loaded src k h1 h2 t (by omega)]

theorem callOut_eq_outAt_map {α : Type} [Inhabited α] (p : Permutations α) (t : Nat) :
    p.callOut t = (p.outAt t).map (Option.map (List.map (p.stepN t).vals.idx)) := rfl

theorem callOut_engine_closed {α : Type} [Inhabited α] (src : List α) (k : Nat)
    (h1 : 1 ≤ k) (h2 : k ≤ src.length) (t : Nat) (ht : 1 ≤ t) :
    (permutations src k).callOut t
      = (Permutations.mk ⟨src, []⟩
          (PermutationState.Loaded (.Start src.length k))).callOut t := by
  rcases le_or_lt t (src.length - k + 1) with hcase | hcase
  · rw [callOut_eq_outAt_map, callOut_eq_outAt_map]
    rw [outAt_engine_closed src k h1 h2 t ht]
    have houtv : (Permutations.mk ⟨src, []⟩
        (PermutationState.Loaded (.Start src.length k))).outAt t
        = some (some (List.range (k - 1) ++ [k + t - 1 - 1])) := by
      rw [← outAt_engine_closed src k h1 h2 t ht]
      show ((permutations src k).stepN t).state.outputIdx = _
      rw [stepN_discovery src k h1 h2 t ht hcase]
      rfl
    rw [houtv]
    show some (some ((List.range (k - 1) ++ [k + t - 1 - 1]).map
        ((permutations src k).stepN t).vals.idx))
      = some (some ((List.range (k - 1) ++ [k + t - 1 - 1]).map
        ((Permutations.mk (⟨src, []⟩ : LazyBuffer α)
          (PermutationState.Loaded (.Start src.length k))).stepN t).vals.idx))
    have hcongr : ∀ i ∈ List.range (k - 1) ++ [k + t - 1 - 1],
        ((permutations src k).stepN t).vals.idx i
          = ((Permutations.mk (⟨src, []⟩ : LazyBuffer α)
              (PermutationState.Loaded (.Start src.length k))).stepN t).vals.idx i := by
      intro i hi
      have hilt : i < k + t - 1 := by
        rcases List.mem_append.mp hi with h | h
        · have := List.mem_range.mp h
          omega
        · have := List.mem_singleton.mp h
          omega
      rw [stepN_discovery src k h1 h2 t ht hcase, stepN_closed]
      show (src.take (k + t - 1)).getD i default = src.getD i default
      exact getD_take src (k + t - 1) i default hilt
    rw [List.map_congr_left hcongr]
  · rw [callOut_eq_outAt_map, callOut_eq_outAt_map]
    rw [outAt_engine_closed src k h1 h2 t ht]
    rw [stepN_loaded src k h1 h2 t (by omega), stepN_closed]

/-! Unreachability of the panic branch. -/

theorem step_state_ne_start {α : Type} (p : Permutations α) (k : Nat) :
    (p.step).state ≠ PermutationState.Start k := by
  obtain ⟨vals, state⟩ := p
  cases state with
  | Start k2 => intro h; cases h
  | Buffered k2 minN =>
    show ((match vals.get_next with
      | (true, v2) => (⟨v2, .Buffered k2 (minN + 1)⟩ : Permutations α)
      | (false, v2) => ⟨v2, .Loaded (CompleteState.advanceN
          (.Start minN k2) (minN - k2 + 1 + 1))⟩)).state ≠ _
    obtain ⟨buf, it⟩ := vals
    cases it with
    | nil => intro h; cases h
    | cons x rest => intro h; cases h
  | Loaded s => intro h; cases h
  | End => intro h; cases h

theorem outputIdx_isSome_of_ne_start (s : PermutationState)
    (h : ∀ k, s ≠ PermutationState.Start k) : (s.outputIdx).isSome = true := by
  cases s with
  | Start k => exact absurd rfl (h k)
  | Buffered k minN => rfl
  | Loaded cs => cases cs with
    | Start n k => rfl
    | Ongoing ind cyc => rfl
  | End => rfl

theorem next_isSome {α : Type} [Inhabited α] (p : Permutations α) :
    (p.next).isSome = true := by
  show (match (p.step).state.outputIdx with
    | none => (none : Option (Option (List α) × Permutations α))
    | some o => some (o.map (fun l : List Nat => l.map (p.step).vals.idx), p.step)).isSome
      = true
  have := outputIdx_isSome_of_ne_start (p.step).state (step_state_ne_start p)
  cases houtr : (p.step).state.outputIdx with
  | none => rw [houtr] at this; cases this
  | some o => rfl

end Permut

namespace Permut

/-! Permutation-invariant preservation of the advancing loop. -/

theorem rot1_length (l : List Nat) : (rot1 l).length = l.length := by
  cases l with
  | nil => rfl
  | cons x xs => simp [rot1]

theorem rot1_perm (l : List Nat) : (rot1 l).Perm l := by
  cases l with
  | nil => exact List.Perm.refl _
  | cons x xs => exact List.perm_append_singleton x xs

theorem take_rot_length (l : List Nat) (i : Nat) :
    (l.take i ++ rot1 (l.drop i)).length = l.length := by
  rw [List.length_append, rot1_length, List.length_take, List.length_drop]
  omega

theorem take_rot_perm (l : List Nat) (i : Nat) :
    (l.take i ++ rot1 (l.drop i)).Perm l := by
  have h1 : (l.take i ++ rot1 (l.drop i)).Perm (l.take i ++ l.drop i) :=
    List.Perm.append_left (l.take i) (rot1_perm (l.drop i))
  rw [List.take_append_drop] at h1
  exact h1

theorem swap_head_perm : ∀ (j : Nat) (rest : List Nat) (x : Nat), j < rest.length →
    (rest.getD j 0 :: rest.set j x).Perm (x :: rest) := by
  intro j
  induction j with
  | zero =>
    intro rest x hj
    cases rest with
    | nil => simp at hj
    | cons y rr => exact List.Perm.swap x y rr
  | succ j ih =>
    intro rest x hj
    cases rest with
    | nil => simp at hj
    | cons y rr =>
      show (rr.getD j 0 :: y :: rr.set j x).Perm (x :: y :: rr)
      have s1 : (rr.getD j 0 :: y :: rr.set j x).Perm (y :: rr.getD j 0 :: rr.set j x) :=
        List.Perm.swap _ _ _
      have s2 : (y :: rr.getD j 0 :: rr.set j x).Perm (y :: x :: rr) :=
        (ih rr x (by simpa using hj)).cons y
      have s3 : (y :: x :: rr).Perm (x :: y :: rr) := List.Perm.swap _ _ _
      exact (s1.trans s2).trans s3

theorem listSwap_perm : ∀ (a : Nat) (l : List Nat) (b : Nat), a < b → b < l.length →
    (listSwap l a b).Perm l := by
  intro a
  induction a with
  | zero =>
    intro l b hab hb
    cases l with
    | nil => simp at hb
    | cons x rest =>
      cases b with
      | zero => omega
      | succ j =>
        show (((x :: rest).set 0 ((x :: rest).getD (j + 1) 0)).set (j + 1)
          ((x :: rest).getD 0 0)).Perm (x :: rest)
        show ((rest.getD j 0 :: rest).set (j + 1) x).Perm (x :: rest)
        show (rest.getD j 0 :: rest.set j x).Perm (x :: rest)
        exact swap_head_perm j rest x (by simpa using hb)
  | succ a ih =>
    intro l b hab hb
    cases l with
    | nil => simp at hb
    | cons x rest =>
      cases b with
      | zero => omega
      | succ j =>
        rw [listSwap_cons]
        exact (ih rest j (by omega) (by simpa using hb)).cons x

theorem advanceGo_preserves : ∀ (j : Nat) (n : Nat) (ind cyc : List Nat),
    ind.length = n → cyc.length ≤ n → j ≤ cyc.length → DigitsOk n cyc →
    ind.Perm (List.range n) →
    ((advanceGo n j ind cyc).1).Perm (List.range n)
    ∧ DigitsOk n ((advanceGo n j ind cyc).2.1)
    ∧ (advanceGo n j ind cyc).1.length = n
    ∧ (advanceGo n j ind cyc).2.1.length = cyc.length := by
  intro j
  induction j with
  | zero =>
    intro n ind cyc hn _ _ hok hperm
    exact ⟨hperm, hok, hn, rfl⟩
  | succ j ih =>
    intro n ind cyc hn hcn hj hok hperm
    have hunfold : advanceGo n (j + 1) ind cyc =
        if cyc.getD j 0 = 0 then
          advanceGo n j (ind.take j ++ rot1 (ind.drop j)) (cyc.set j (n - j - 1))
        else
          (listSwap ind j (n - cyc.getD j 0), cyc.set j (cyc.getD j 0 - 1), false) := rfl
    rw [hunfold]
    by_cases hd : cyc.getD j 0 = 0
    · rw [if_pos hd]
      have hok2 : DigitsOk n (cyc.set j (n - j - 1)) := by
        intro i hi
        rw [List.length_set] at hi
        by_cases hij : i = j
        · subst hij
          rw [getD_set_self cyc i _ hi]
          omega
        · rw [getD_set_ne _ _ _ _ _ (fun h => hij h.symm)]
          exact hok i hi
      have := ih n (ind.take j ++ rot1 (ind.drop j)) (cyc.set j (n - j - 1))
        (by rw [take_rot_length]; exact hn)
        (by rw [List.length_set]; exact hcn)
        (by rw [List.length_set]; omega)
        hok2
        ((take_rot_perm ind j).trans hperm)
      rcases this with ⟨h1, h2, h3, h4⟩
      exact ⟨h1, h2, h3, by rw [h4, List.length_set]⟩
    · rw [if_neg hd]
      have hbj : cyc.getD j 0 + j + 1 ≤ n := hok j (by omega)
      have hdge : 1 ≤ cyc.getD j 0 := by omega
      refine ⟨?_, ?_, ?_, ?_⟩
      · exact (listSwap_perm j ind (n - cyc.getD j 0) (by omega)
          (by rw [hn]; omega)).trans hperm
      · intro i hi
        rw [List.length_set] at hi
        by_cases hij : i = j
        · subst hij
          rw [getD_set_self cyc i _ hi]
          omega
        · rw [getD_set_ne _ _ _ _ _ (fun h => hij h.symm)]
          exact hok i hi
      · show (listSwap ind j (n - cyc.getD j 0)).length = n
        show (((ind.set j (ind.getD (n - cyc.getD j 0) 0)).set (n - cyc.getD j 0)
          (ind.getD j 0))).length = n
        rw [List.length_set, List.length_set]
        exact hn
      · show (cyc.set j (cyc.getD j 0 - 1)).length = cyc.length
        rw [List.length_set]

end Permut

namespace Permut

theorem advanceGo_all_zero : ∀ (j : Nat) (n : Nat) (ind cyc : List Nat),
    (∀ i, i < j → cyc.getD i 0 = 0) →
    ∃ ind2 cyc2, advanceGo n j ind cyc = (ind2, cyc2, true)
      ∧ ind2.length = ind.length ∧ cyc2.length = cyc.length := by
  intro j
  induction j with
  | zero =>
    intro n ind cyc _
    exact ⟨ind, cyc, rfl, rfl, rfl⟩
  | succ j ih =>
    intro n ind cyc hz
    have hd : cyc.getD j 0 = 0 := hz j (by omega)
    have hunfold : advanceGo n (j + 1) ind cyc =
        advanceGo n j (ind.take j ++ rot1 (ind.drop j)) (cyc.set j (n - j - 1)) := by
      show (if cyc.getD j 0 = 0 then _ else _) = _
      rw [if_pos hd]
    rw [hunfold]
    have hz2 : ∀ i, i < j → (cyc.set j (n - j - 1)).getD i 0 = 0 := by
      intro i hi
      rw [getD_set_ne _ _ _ _ _ (by omega)]
      exact hz i (by omega)
    obtain ⟨ind2, cyc2, heq, hl1, hl2⟩ := ih n (ind.take j ++ rot1 (ind.drop j))
      (cyc.set j (n - j - 1)) hz2
    refine ⟨ind2, cyc2, heq, ?_, ?_⟩
    · rw [hl1, take_rot_length]
    · rw [hl2, List.length_set]

theorem advanceN_start_mod {n k : Nat} (hkn : k ≤ n) : ∀ (t : Nat),
    CompleteState.advanceN (.Start n k) t
      = CompleteState.advanceN (.Start n k) (t % (ffNat n k + 1)) := by
  intro t
  induction t using Nat.strong_induction_on with
  | _ t ih =>
    rcases Nat.lt_or_ge t (ffNat n k + 1) with h | h
    · rw [Nat.mod_eq_of_lt h]
    · have hper : CompleteState.advanceN (.Start n k) t
          = CompleteState.advanceN (.Start n k) (t - (ffNat n k + 1)) := by
        have := advanceN_start_periodic hkn (t - (ffNat n k + 1))
        rw [show ffNat n k + 1 + (t - (ffNat n k + 1)) = t by omega] at this
        exact this
      rw [hper, ih (t - (ffNat n k + 1)) (by have := ffNat_pos hkn; omega)]
      rw [← Nat.mod_eq_sub_mod h]

theorem outAt_closed_form {α : Type} (src : List α) (k : Nat)
    (h1 : 1 ≤ k) (h2 : k ≤ src.length) (t : Nat) (ht : 1 ≤ t) :
    (permutations src k).outAt t
      = (PermutationState.Loaded
          (CompleteState.advanceN (.Start src.length k) t)).outputIdx := by
  rw [outAt_engine_closed src k h1 h2 t ht]
  show ((Permutations.mk ⟨src, []⟩ _).stepN t).state.outputIdx = _
  rw [stepN_closed]

theorem outAt_closed_form_k0 {α : Type} (src : List α) (t : Nat) :
    (permutations src 0).outAt t
      = (PermutationState.Loaded (CompleteState.advanceN (.Start 0 0) t)).outputIdx := by
  show ((permutations src 0).stepN t).state.outputIdx = _
  rw [stepN_k0]

theorem ffNat_ge {n k : Nat} (h1 : 1 ≤ k) (h2 : k ≤ n) : n ≤ ffNat n k := by
  rw [ffNat_eq_prodRange h2]
  cases k with
  | zero => omega
  | succ m =>
    have := prodRange_ge_last (a := n - (m + 1) + 1) (by omega) m
    rw [show n - (m + 1) + 1 + m = n by omega] at this
    exact this

/-- Output value of the `t`-th call, uniformly for `k ≤ n` and `1 ≤ t ≤ n!/(n-k)!`:
a decoded digit selection with mixed-radix value `n!/(n-k)! - t`. -/
theorem outAt_formula {α : Type} (src : List α) (k : Nat) (hk : k ≤ src.length)
    (t : Nat) (ht1 : 1 ≤ t) (htP : t ≤ ffNat src.length k) :
    ∃ cyc, (permutations src k).outAt t
        = some (some (picks (List.range src.length) cyc))
      ∧ cyc.length = k ∧ DigitsOk src.length cyc
      ∧ mval src.length cyc = ffNat src.length k - t := by
  rcases Nat.eq_zero_or_pos k with hk0 | hk1
  · subst hk0
    have hP : ffNat src.length 0 = 1 := by
      rw [ffNat_eq_prodRange (by omega)]
      rfl
    rw [hP] at htP
    have ht : t = 1 := by omega
    subst ht
    refine ⟨[], ?_, rfl, by intro i hi; simp at hi, ?_⟩
    · rw [outAt_closed_form_k0]
      rw [show (1 : Nat) = 0 + 1 from rfl, advanceN_succ_right]
      show (PermutationState.Loaded (CompleteState.advance (.Start 0 0))).outputIdx = _
      rw [advance_start (Nat.le_refl 0)]
      rfl
    · rw [mval_nil, hP]
  · obtain ⟨cyc, hst, hl, hok, hv⟩ := advanceN_start_spec hk t ht1 htP
    refine ⟨cyc, ?_, hl, hok, hv⟩
    rw [outAt_closed_form src k hk1 hk t ht1, hst]
    show some (some ((buildIndices (List.range src.length) cyc).take cyc.length)) = _
    rw [build_take]

/-- The call after the last permutation reports exhaustion. -/
theorem outAt_exhaust {α : Type} (src : List α) (k : Nat) (hk : k ≤ src.length) :
    (permutations src k).outAt (ffNat src.length k + 1) = some none := by
  rcases Nat.eq_zero_or_pos k with hk0 | hk1
  · subst hk0
    rw [outAt_closed_form_k0]
    have hP : ffNat src.length 0 = 1 := by
      rw [ffNat_eq_prodRange (by omega)]
      rfl
    rw [hP]
    have hw := advanceN_start_wrap (n := 0) (k := 0) (Nat.le_refl 0)
    have hP0 : ffNat 0 0 = 1 := by rw [ffNat_eq_prodRange (Nat.le_refl 0)]; rfl
    rw [hP0] at hw
    rw [hw]
    rfl
  · rw [outAt_closed_form src k hk1 hk _ (by have := ffNat_pos hk; omega)]
    rw [advanceN_start_wrap hk]
    rfl

end Permut

namespace Permut

theorem take_drop_count {α : Type} (l : List α) (m : Nat) :
    (LazyBuffer.mk (l.take m) (l.drop m)).count = l.length := by
  show (l.take m).length + (l.drop m).length = l.length
  rw [List.length_take, List.length_drop]
  omega

/-- Shape of the `t`-th output: exhaustion signal exactly at multiples of the
cycle length `n!/(n-k)! + 1`, a permutation everywhere else. -/
theorem outAt_shape {α : Type} (src : List α) (k : Nat) (hk : k ≤ src.length)
    (t : Nat) (ht : 1 ≤ t) :
    (t % (ffNat src.length k + 1) = 0 → (permutations src k).outAt t = some none)
    ∧ (1 ≤ t % (ffNat src.length k + 1) →
        ∃ l, (permutations src k).outAt t = some (some l)) := by
  rcases Nat.eq_zero_or_pos k with hk0 | hk1
  · subst hk0
    have hP : ffNat src.length 0 = 1 := by
      rw [ffNat_eq_prodRange (by omega)]
      rfl
    have hP0 : ffNat 0 0 = 1 := by rw [ffNat_eq_prodRange (Nat.le_refl 0)]; rfl
    have hchain : (permutations src 0).outAt t
        = (PermutationState.Loaded
            (CompleteState.advanceN (.Start 0 0) (t % 2))).outputIdx := by
      rw [outAt_closed_form_k0]
      have := advanceN_start_mod (n := 0) (k := 0) (Nat.le_refl 0) t
      rw [hP0] at this
      rw [this]
    rw [hP]
    constructor
    · intro hmod
      rw [hchain, hmod]
      rfl
    · intro hmod
      have hr : t % 2 = 1 := by omega
      rw [hchain, hr]
      obtain ⟨cyc, hst, _, _, _⟩ :=
        advanceN_start_spec (n := 0) (k := 0) (Nat.le_refl 0) 1 (Nat.le_refl 1)
          (by rw [hP0])
      rw [hst]
      exact ⟨_, rfl⟩
  · have hchain : (permutations src k).outAt t
        = (PermutationState.Loaded (CompleteState.advanceN (.Start src.length k)
            (t % (ffNat src.length k + 1)))).outputIdx := by
      rw [outAt_closed_form src k hk1 hk t ht]
      rw [advanceN_start_mod hk t]
    constructor
    · intro hmod
      rw [hchain, hmod]
      rfl
    · intro hmod
      have hrP : t % (ffNat src.length k + 1) ≤ ffNat src.length k := by
        have := Nat.mod_lt t (y := ffNat src.length k + 1) (by omega)
        omega
      obtain ⟨cyc, hst, _, _, _⟩ := advanceN_start_spec hk _ hmod hrP
      rw [hchain, hst]
      exact ⟨_, rfl⟩

theorem count_loaded_spec {n k : Nat} (hkn : k ≤ n) (t c : Nat)
    (hc : CompleteState.remaining (CompleteState.advanceN (.Start n k) t) = some c) :
    (∀ j, 1 ≤ j → j ≤ c → 1 ≤ (t + j) % (ffNat n k + 1))
    ∧ (t + c + 1) % (ffNat n k + 1) = 0 := by
  have hmod := advanceN_start_mod hkn t
  have hPpos := ffNat_pos hkn
  have hrlt : t % (ffNat n k + 1) < ffNat n k + 1 := Nat.mod_lt t (by omega)
  have key : ∀ j, (t + j) % (ffNat n k + 1)
      = (t % (ffNat n k + 1) + j) % (ffNat n k + 1) := by
    intro j
    rw [Nat.add_mod t j, Nat.add_mod (t % (ffNat n k + 1)) j,
      Nat.mod_mod_of_dvd t (dvd_refl (ffNat n k + 1))]
  rcases Nat.eq_zero_or_pos (t % (ffNat n k + 1)) with hr0 | hr1
  · rw [hmod, hr0] at hc
    have hc2 : CompleteState.remaining (.Start n k) = some c := hc
    rw [remaining_start_eq n k] at hc2
    have hcP : c = ffNat n k := by
      by_cases hlt : ffNat n k < USIZE
      · rw [if_pos hlt] at hc2
        exact (Option.some.injEq _ _).mp hc2.symm
      · rw [if_neg hlt] at hc2
        cases hc2
    subst hcP
    refine ⟨?_, ?_⟩
    · intro j hj1 hjP
      rw [key j, hr0, Nat.zero_add, Nat.mod_eq_of_lt (by omega)]
      omega
    · rw [show t + ffNat n k + 1 = t + (ffNat n k + 1) by omega]
      rw [key (ffNat n k + 1), hr0, Nat.zero_add, Nat.mod_self]
  · obtain ⟨cyc, hst, hl, hok, hv⟩ := advanceN_start_spec hkn (t % (ffNat n k + 1))
      hr1 (by omega)
    rw [hmod, hst] at hc
    have hbl : (buildIndices (List.range n) cyc).length = n := by
      have hok2 : DigitsOk (List.range n).length cyc := by rwa [List.length_range]
      rw [buildIndices_length cyc (List.range n) hok2
        (by rw [List.length_range]; omega), List.length_range]
    have hc2 := hc
    rw [remaining_ongoing_eq _ cyc (by rw [hbl]; omega)] at hc2
    rw [hbl, hv] at hc2
    have hcv : c = ffNat n k - t % (ffNat n k + 1) := by
      by_cases hlt : ffNat n k - t % (ffNat n k + 1) < USIZE
      · rw [if_pos hlt] at hc2
        exact (Option.some.injEq _ _).mp hc2.symm
      · rw [if_neg hlt] at hc2
        cases hc2
    subst hcv
    refine ⟨?_, ?_⟩
    · intro j hj1 hjc
      rw [key j, Nat.mod_eq_of_lt (by omega)]
      omega
    · rw [show t + (ffNat n k - t % (ffNat n k + 1)) + 1
        = t + (ffNat n k - t % (ffNat n k + 1) + 1) by omega]
      rw [key (ffNat n k - t % (ffNat n k + 1) + 1)]
      rw [show t % (ffNat n k + 1) + (ffNat n k - t % (ffNat n k + 1) + 1)
        = ffNat n k + 1 by omega]
      rw [Nat.mod_self]

end Permut

namespace Permut

/-- Discriminator for the `Start` variant of the engine state. -/
def PermutationState.isStart : PermutationState → Bool
  | .Start _ => true
  | _ => false

/-- Claim C1: for every finite source of length n and every k ≤ n, iterating
the engine to exhaustion produces exactly n!/(n-k)! permutations — the t-th
call yields a permutation for 1 ≤ t ≤ n!/(n-k)!, each a distinct ordered
selection of k positions from the n source positions (length k, no duplicate
positions, all positions < n, pairwise distinct across calls) — and the next
call reports exhaustion; for k > n ≥ 0 every call yields none. -/
theorem claim_C1 : ∀ (α : Type) (src : List α) (k : Nat),
    (k ≤ src.length →
      (∀ t, 1 ≤ t → t ≤ ffNat src.length k →
        ∃ l, (permutations src k).outAt t = some (some l)
          ∧ l.length = k ∧ l.Nodup ∧ (∀ x ∈ l, x < src.length))
      ∧ (∀ t1 t2 l1 l2, 1 ≤ t1 → t1 < t2 → t2 ≤ ffNat src.length k →
          (permutations src k).outAt t1 = some (some l1) →
          (permutations src k).outAt t2 = some (some l2) → l1 ≠ l2)
      ∧ (permutations src k).outAt (ffNat src.length k + 1) = some none)
    ∧ (src.length < k → ∀ t, 1 ≤ t → (permutations src k).outAt t = some none) := by
  intro α src k
  constructor
  · intro hk
    refine ⟨?_, ?_, outAt_exhaust src k hk⟩
    · intro t ht1 htP
      obtain ⟨cyc, hout, hl, hok, _⟩ := outAt_formula src k hk t ht1 htP
      have hokR : DigitsOk (List.range src.length).length cyc := by
        rwa [List.length_range]
      have hlR : cyc.length ≤ (List.range src.length).length := by
        rw [List.length_range]
        omega
      refine ⟨picks (List.range src.length) cyc, hout, ?_, ?_, ?_⟩
      · rw [picks_length, hl]
      · exact picks_nodup cyc _ (List.nodup_range _) hokR hlR
      · intro x hx
        have := picks_subset cyc _ hokR hlR x hx
        exact List.mem_range.mp this
    · intro t1 t2 l1 l2 ht1 hlt ht2 hout1 hout2 heq
      obtain ⟨cyc1, ho1, hl1, hok1, hv1⟩ := outAt_formula src k hk t1 ht1 (by omega)
      obtain ⟨cyc2, ho2, hl2, hok2, hv2⟩ := outAt_formula src k hk t2 (by omega) ht2
      rw [hout1] at ho1
      rw [hout2] at ho2
      have he1 : l1 = picks (List.range src.length) cyc1 := by
        have := (Option.some.injEq _ _).mp ho1
        exact (Option.some.injEq _ _).mp this
      have he2 : l2 = picks (List.range src.length) cyc2 := by
        have := (Option.some.injEq _ _).mp ho2
        exact (Option.some.injEq _ _).mp this
      have hpicks : picks (List.range src.length) cyc1
          = picks (List.range src.length) cyc2 := by
        rw [← he1, ← he2, heq]
      have hcyc : cyc1 = cyc2 := by
        apply picks_inj cyc1 cyc2 (List.range src.length) (List.nodup_range _)
        · rwa [List.length_range]
        · rwa [List.length_range]
        · rw [List.length_range]; omega
        · rw [List.length_range]; omega
        · exact hpicks
      rw [hcyc] at hv1
      rw [hv1] at hv2
      omega
  · intro hk t ht
    show ((permutations src k).stepN t).state.outputIdx = some none
    rw [stepN_end src k hk t]
    rfl

/-- Claim C1 witness: at source positions 0,1,2 with k = 2 the engine is
exhausted right after the 3!/1! = 6 produced permutations. -/
theorem claim_C1_witness :
    (permutations (List.range 3) 2).outAt (ffNat (List.range 3).length 2 + 1)
      = some none :=
  ((claim_C1 Nat (List.range 3) 2).1 (by decide)).2.2

/-- Claim C5: an overflowing remaining count is signalled as `none`, distinct
from a zero count: `remaining` on `Start` is `none` exactly when the falling
factorial reaches `2 ^ 64`, otherwise it returns the exact falling factorial;
`remaining` on a well-formed `Ongoing` state is `none` exactly when the
mixed-radix value reaches `2 ^ 64`, otherwise the exact mixed-radix value. -/
theorem claim_C5 : ∀ (n k : Nat) (ind cyc : List Nat),
    (CompleteState.remaining (.Start n k) = none ↔ USIZE ≤ ffNat n k)
    ∧ (∀ c, CompleteState.remaining (.Start n k) = some c → c = ffNat n k)
    ∧ (cyc.length ≤ ind.length →
        (CompleteState.remaining (.Ongoing ind cyc) = none
          ↔ USIZE ≤ mval ind.length cyc)
        ∧ (∀ c, CompleteState.remaining (.Ongoing ind cyc) = some c
            → c = mval ind.length cyc)) := by
  intro n k ind cyc
  refine ⟨?_, ?_, ?_⟩
  · rw [remaining_start_eq]
    by_cases h : ffNat n k < USIZE
    · rw [if_pos h]
      constructor
      · intro habs; cases habs
      · intro hge; omega
    · rw [if_neg h]
      constructor
      · intro _; omega
      · intro _; rfl
  · intro c hc
    rw [remaining_start_eq] at hc
    by_cases h : ffNat n k < USIZE
    · rw [if_pos h] at hc
      exact ((Option.some.injEq _ _).mp hc).symm
    · rw [if_neg h] at hc
      cases hc
  · intro hlen
    rw [remaining_ongoing_eq ind cyc hlen]
    constructor
    · by_cases h : mval ind.length cyc < USIZE
      · rw [if_pos h]
        constructor
        · intro habs; cases habs
        · intro hge; omega
      · rw [if_neg h]
        constructor
        · intro _; omega
        · intro _; rfl
    · intro c hc
      by_cases h : mval ind.length cyc < USIZE
      · rw [if_pos h] at hc
        exact ((Option.some.injEq _ _).mp hc).symm
      · rw [if_neg h] at hc
        cases hc

/-- Claim C5 witness: for n = k = 21 the true count 21! exceeds `usize::MAX`
and the query overflows. -/
theorem claim_C5_witness : USIZE ≤ ffNat 21 21 :=
  (claim_C5 21 21 [] []).1.mp (by decide)

/-- Claim C7: for the source [A,B,C,D] with k = 2, the engine produces exactly
the 12 two-element arrangements in the documented order, and the 13th call
reports exhaustion. -/
theorem claim_C7 :
    (permutations ["A", "B", "C", "D"] 2).nextN 13
      = [some ["A", "B"], some ["A", "C"], some ["A", "D"],
         some ["B", "A"], some ["B", "C"], some ["B", "D"],
         some ["C", "A"], some ["C", "B"], some ["C", "D"],
         some ["D", "A"], some ["D", "B"], some ["D", "C"], none] := by
  decide

/-- Claim C8: with k = 0 the engine is constructed directly in the closed
`Start{n:0,k:0}` state with the source untouched, and it yields exactly one
empty permutation followed by exhaustion, for every source. -/
theorem claim_C8 : ∀ (α : Type) [Inhabited α] (src : List α),
    (permutations src 0).state = PermutationState.Loaded (.Start 0 0)
    ∧ (permutations src 0).vals = LazyBuffer.new src
    ∧ (permutations src 0).next
        = some (some [], ⟨LazyBuffer.new src, .Loaded (.Ongoing [] [])⟩)
    ∧ (Permutations.mk (LazyBuffer.new src)
        (PermutationState.Loaded (.Ongoing [] []))).next
        = some (none, ⟨LazyBuffer.new src, .Loaded (.Start 0 0)⟩) := by
  intro α inst src
  exact ⟨rfl, rfl, rfl, rfl⟩

/-- Claim C9: size estimation feeds the adapter's bounds through the falling
factorial: the lower bound saturates at `usize::MAX` on overflow, an unknown
upper bound propagates as unknown, and during discovery the already emitted
`min_n - k + 1` permutations are subtracted from both bounds. -/
theorem claim_C9 : ∀ (lo : Nat) (upp : Option Nat) (k minN : Nat),
    (sizeHintAux (lo, upp) (.Start k)).1 = min (ffNat lo k) (USIZE - 1)
    ∧ (upp = none → (sizeHintAux (lo, upp) (.Start k)).2 = none)
    ∧ (∀ u, upp = some u → (sizeHintAux (lo, upp) (.Start k)).2
        = (if ffNat u k < USIZE then some (ffNat u k) else none))
    ∧ sizeHintAux (lo, upp) (.Buffered k minN)
        = subScalar (sizeHintAux (lo, upp) (.Start k)) (minN - k + 1) := by
  intro lo upp k minN
  refine ⟨?_, ?_, ?_, rfl⟩
  · show (CompleteState.remaining (.Start lo k)).getD (USIZE - 1) = _
    rw [remaining_start_eq]
    by_cases h : ffNat lo k < USIZE
    · rw [if_pos h]
      show ffNat lo k = _
      have := USIZE_pos
      omega
    · rw [if_neg h]
      show USIZE - 1 = _
      have := USIZE_pos
      omega
  · intro hnone
    subst hnone
    rfl
  · intro u hu
    subst hu
    show CompleteState.remaining (.Start u k) = _
    exact remaining_start_eq u k

/-- Claim C9 witness: an unknown source upper bound propagates as an unknown
upper bound of the size estimate. -/
theorem claim_C9_witness : (sizeHintAux (3, none) (.Start 2)).2 = none :=
  (claim_C9 3 none 2 2).2.1 rfl

/-- Claim C10: the `panic!("unexpected iterator state")` branch of `next` is
unreachable: after the state-advancing half of `next` the state is never
`Start`, so `next` always returns a value instead of panicking. -/
theorem claim_C10 : ∀ (α : Type) [Inhabited α] (p : Permutations α),
    ((p.step).state.isStart = false) ∧ (p.next).isSome = true := by
  intro α inst p
  refine ⟨?_, next_isSome p⟩
  cases hs : (p.step).state with
  | Start k => exact absurd hs (step_state_ne_start p k)
  | Buffered k minN => rfl
  | Loaded s => rfl
  | End => rfl

end Permut

namespace Permut

/-- Claim C2: the two-phase engine output is element-for-element the output of
the closed stepping algorithm run on the fully known source from the start —
for every call index, in particular for the first `n - k + 1` discovery-phase
calls — and after the splice the engine's state coincides exactly with the
closed algorithm's state, so its cursor lands on the permutation the
discovery phase would emit next. -/
theorem claim_C2 : ∀ (α : Type) [Inhabited α] (src : List α) (k t : Nat),
    1 ≤ k → k ≤ src.length → 1 ≤ t →
    (permutations src k).callOut t
      = (Permutations.mk ⟨src, []⟩
          (PermutationState.Loaded (.Start src.length k))).callOut t
    ∧ (src.length - k + 2 ≤ t →
        ((permutations src k).stepN t).state
          = ((Permutations.mk (⟨src, []⟩ : LazyBuffer α)
              (PermutationState.Loaded (.Start src.length k))).stepN t).state) := by
  intro α inst src k t h1 h2 ht
  refine ⟨callOut_engine_closed src k h1 h2 t ht, ?_⟩
  intro hlate
  rw [stepN_loaded src k h1 h2 t hlate, stepN_closed]

/-- Claim C2 witness: first call on a three-element source with k = 2 agrees
between the incremental engine and the closed algorithm. -/
theorem claim_C2_witness :
    (permutations [5, 6, 7] 2).callOut 1
      = (Permutations.mk ⟨[5, 6, 7], []⟩
          (PermutationState.Loaded (.Start (List.length [5, 6, 7]) 2))).callOut 1 :=
  (claim_C2 Nat [5, 6, 7] 2 1 (by decide) (by decide) (by decide)).1

/-- Claim C4 counterexample: the claim "no further request for the next
permutation ever yields a permutation again" is false on the code: for the
source [0,1] with k = 2, the third call reports exhaustion (the wraparound
`Start` is surfaced as `none`), but the fourth call yields a permutation
again — the outer state never becomes `End`, the cycle restarts. -/
theorem claim_C4_counterexample :
    (permutations [0, 1] 2).nextN 4
      = [some [0, 1], some [1, 0], none, some [0, 1]] := by
  decide

/-- Claim C4, amended: once the stepping cycle has wrapped around (every
counter is zero), the call observing it returns `none` and the closed state
returns to `AtStart` — but the outer engine state stays `Loaded` instead of
transitioning to `End`, and the very next call yields a permutation again. -/
theorem claim_C4 : ∀ (α : Type) [Inhabited α] (p : Permutations α)
    (ind cyc : List Nat),
    p.state = PermutationState.Loaded (.Ongoing ind cyc) →
    (∀ i, i < cyc.length → cyc.getD i 0 = 0) →
    p.next = some (none, ⟨p.vals, .Loaded (.Start ind.length cyc.length)⟩)
    ∧ (cyc.length ≤ ind.length →
        ∃ l q, (Permutations.mk p.vals (PermutationState.Loaded
          (.Start ind.length cyc.length))).next = some (some l, q)) := by
  intro α inst p ind cyc hstate hzero
  obtain ⟨vals, st⟩ := p
  simp only [] at hstate
  subst hstate
  have hadv : CompleteState.advance (.Ongoing ind cyc)
      = .Start ind.length cyc.length := by
    obtain ⟨ind2, cyc2, heq, hl1, hl2⟩ :=
      advanceGo_all_zero cyc.length ind.length ind cyc hzero
    show (let r := Permut.advance ind cyc
      if r.2.2 then CompleteState.Start r.1.length r.2.1.length
      else CompleteState.Ongoing r.1 r.2.1) = _
    show (let r := advanceGo ind.length cyc.length ind cyc
      if r.2.2 then CompleteState.Start r.1.length r.2.1.length
      else CompleteState.Ongoing r.1 r.2.1) = _
    rw [heq]
    show CompleteState.Start ind2.length cyc2.length = _
    rw [hl1, hl2]
  constructor
  · have hstep : (Permutations.mk vals
        (PermutationState.Loaded (.Ongoing ind cyc))).step
        = ⟨vals, .Loaded (.Start ind.length cyc.length)⟩ := by
      show (⟨vals, .Loaded (CompleteState.advance (.Ongoing ind cyc))⟩
        : Permutations α) = _
      rw [hadv]
    show (match ((Permutations.mk vals
        (PermutationState.Loaded (.Ongoing ind cyc))).step).state.outputIdx with
      | none => (none : Option (Option (List α) × Permutations α))
      | some o => some (o.map (fun l : List Nat => l.map ((Permutations.mk vals
          (PermutationState.Loaded (.Ongoing ind cyc))).step).vals.idx),
          (Permutations.mk vals (PermutationState.Loaded (.Ongoing ind cyc))).step))
      = _
    rw [hstep]
    rfl
  · intro hkn
    have hstep2 : (Permutations.mk vals (PermutationState.Loaded
        (.Start ind.length cyc.length))).step
        = ⟨vals, .Loaded (.Ongoing (List.range ind.length)
            (allMax ind.length cyc.length))⟩ := by
      show (⟨vals, .Loaded (CompleteState.advance
        (.Start ind.length cyc.length))⟩ : Permutations α) = _
      rw [advance_start hkn]
    refine ⟨((List.range ind.length).take (allMax ind.length cyc.length).length).map
      vals.idx, ⟨vals, .Loaded (.Ongoing (List.range ind.length)
        (allMax ind.length cyc.length))⟩, ?_⟩
    show (match ((Permutations.mk vals (PermutationState.Loaded
        (.Start ind.length cyc.length))).step).state.outputIdx with
      | none => (none : Option (Option (List α) × Permutations α))
      | some o => some (o.map (fun l : List Nat => l.map ((Permutations.mk vals
          (PermutationState.Loaded (.Start ind.length cyc.length))).step).vals.idx),
          (Permutations.mk vals (PermutationState.Loaded
            (.Start ind.length cyc.length))).step))
      = _
    rw [hstep2]
    rfl

/-- Claim C4 witness: a concrete wraparound state for n = k = 2. -/
theorem claim_C4_witness :
    (Permutations.mk (⟨[0, 1], []⟩ : LazyBuffer Nat)
      (PermutationState.Loaded (.Ongoing [1, 0] [0, 0]))).next
      = some (none, ⟨⟨[0, 1], []⟩,
          .Loaded (.Start (List.length [1, 0]) (List.length [0, 0]))⟩) :=
  (claim_C4 Nat ⟨⟨[0, 1], []⟩, PermutationState.Loaded (.Ongoing [1, 0] [0, 0])⟩
    [1, 0] [0, 0] rfl (by decide)).1

/-- Claim C6: on entry to `Ongoing` from `AtStart` the indices are exactly
`[0, ..., n-1]` and `cycles[i] = n - 1 - i`; and one step of the advancing
algorithm (covering both the swap and the rotate-left branches) preserves the
invariant that `indices` is a permutation of `0..n` and `cycles[i] ≤ n-1-i`. -/
theorem claim_C6 : ∀ (n k : Nat) (ind cyc : List Nat),
    (k ≤ n →
      CompleteState.advance (.Start n k) = .Ongoing (List.range n) (allMax n k)
      ∧ (allMax n k).length = k
      ∧ (∀ i, i < k → (allMax n k).getD i 0 = n - 1 - i)
      ∧ DigitsOk n (allMax n k))
    ∧ (ind.length = n → cyc.length = k → k ≤ n →
        ind.Perm (List.range n) → DigitsOk n cyc →
        ((Permut.advance ind cyc).1).Perm (List.range n)
        ∧ DigitsOk n ((Permut.advance ind cyc).2.1)
        ∧ (Permut.advance ind cyc).1.length = n
        ∧ (Permut.advance ind cyc).2.1.length = k) := by
  intro n k ind cyc
  constructor
  · intro hkn
    exact ⟨advance_start hkn, allMax_length n k,
      fun i hi => getD_allMax k n i hkn hi, DigitsOk_allMax hkn⟩
  · intro hn hk hkn hperm hok
    have := advanceGo_preserves cyc.length n ind cyc hn (by omega)
      (Nat.le_refl _) hok hperm
    rcases this with ⟨h1, h2, h3, h4⟩
    have hadv : Permut.advance ind cyc = advanceGo n cyc.length ind cyc := by
      show advanceGo ind.length cyc.length ind cyc = _
      rw [hn]
    rw [hadv]
    exact ⟨h1, h2, h3, by rw [h4, hk]⟩

/-- Claim C6 witness: the invariant is preserved at a concrete `Ongoing`
state for n = 3, k = 2. -/
theorem claim_C6_witness :
    ((Permut.advance [2, 1, 0] [0, 1]).1).Perm (List.range 3) :=
  ((claim_C6 3 2 [2, 1, 0] [0, 1]).2 rfl rfl (by decide)
    (by decide) (by decide)).1

end Permut

namespace Permut

/-- Claim C3: at any point of the iteration — after any number `t` of calls —
a remaining-count query that returns a value `c` returns exactly the number
of permutations still to be produced: the next `c` calls each yield a
permutation and the call after them reports exhaustion.  (`count` drains the
source in the discovery phase and subtracts the `min_n - k + 1` permutations
already emitted; on closed states it is the falling-factorial, respectively
mixed-radix, value computed by `CompleteState::remaining`.) -/
theorem claim_C3 :
    (∀ (α : Type) (src : List α) (k t c : Nat),
      Permutations.count ((permutations src k).stepN t) = some c →
      (∀ j, 1 ≤ j → j ≤ c →
        ∃ l, (permutations src k).outAt (t + j) = some (some l))
      ∧ (permutations src k).outAt (t + c + 1) = some none)
    ∧ (∀ n : Nat, CompleteState.remaining (.Start n 0) = some 1)
    ∧ (∀ n k : Nat, n < k → CompleteState.remaining (.Start n k) = some 0) := by
  refine ⟨?_, ?_, ?_⟩
  case refine_2 =>
    intro n
    show (if n < 0 then some 0 else (List.range' (n - 0 + 1) 0).foldlM checked_mul 1) = _
    rw [if_neg (by omega)]
    rfl
  case refine_3 =>
    intro n k h
    show (if n < k then some 0 else _) = _
    rw [if_pos h]
  intro α src k t c hc
  by_cases hnk : src.length < k
  · rw [stepN_end src k hnk t] at hc
    have hc2 : (some 0 : Option Nat) = some c := hc
    have hc0 : c = 0 := ((Option.some.injEq _ _).mp hc2).symm
    subst hc0
    constructor
    · intro j hj1 hj0
      omega
    · show ((permutations src k).stepN (t + 0 + 1)).state.outputIdx = some none
      rw [stepN_end src k hnk (t + 0 + 1)]
      rfl
  · push_neg at hnk
    by_cases hk0 : k = 0
    · subst hk0
      rw [stepN_k0 src t] at hc
      have hc2 : CompleteState.remaining
          (CompleteState.advanceN (.Start 0 0) t) = some c := hc
      obtain ⟨hsom, hend⟩ := count_loaded_spec (Nat.le_refl 0) t c hc2
      have hff : ffNat src.length 0 = ffNat 0 0 := by
        rw [ffNat_eq_prodRange (Nat.zero_le _), ffNat_eq_prodRange (Nat.le_refl 0)]
        rfl
      constructor
      · intro j hj1 hjc
        exact (outAt_shape src 0 (Nat.zero_le _) (t + j) (by omega)).2
          (by rw [hff]; exact hsom j hj1 hjc)
      · exact (outAt_shape src 0 (Nat.zero_le _) (t + c + 1) (by omega)).1
          (by rw [hff]; exact hend)
    · have hk1 : 1 ≤ k := by omega
      rcases Nat.eq_zero_or_pos t with ht0 | ht1
      · subst ht0
        rw [show (permutations src k).stepN 0 = permutations src k from rfl] at hc
        rw [permutations_construct src k hk1 hnk] at hc
        have hc2 : CompleteState.remaining (.Start
            ((LazyBuffer.mk (src.take k) (src.drop k)).count) k) = some c := hc
        rw [take_drop_count src k] at hc2
        rw [remaining_start_eq] at hc2
        have hcP : c = ffNat src.length k := by
          by_cases h : ffNat src.length k < USIZE
          · rw [if_pos h] at hc2
            exact ((Option.some.injEq _ _).mp hc2).symm
          · rw [if_neg h] at hc2
            cases hc2
        subst hcP
        constructor
        · intro j hj1 hjc
          obtain ⟨cyc, hout, _, _, _⟩ := outAt_formula src k hnk j hj1 hjc
          rw [Nat.zero_add]
          exact ⟨_, hout⟩
        · rw [Nat.zero_add]
          exact outAt_exhaust src k hnk
      · rcases le_or_lt t (src.length - k + 1) with hdisc | hload
        · rw [stepN_discovery src k hk1 hnk t ht1 hdisc] at hc
          have hc2 : (CompleteState.remaining (.Start
              ((LazyBuffer.mk (src.take (k + t - 1))
                (src.drop (k + t - 1))).count) k)).map
              (fun x => x - ((k + t - 1) - k + 1)) = some c := hc
          rw [take_drop_count src (k + t - 1)] at hc2
          rw [remaining_start_eq] at hc2
          have hPt : t ≤ ffNat src.length k := by
            have hge := ffNat_ge hk1 hnk
            omega
          have hcv : c = ffNat src.length k - t := by
            by_cases h : ffNat src.length k < USIZE
            · rw [if_pos h] at hc2
              simp only [Option.map_some'] at hc2
              have h3 : ffNat src.length k - ((k + t - 1) - k + 1) = c :=
                (Option.some.injEq _ _).mp hc2
              omega
            · rw [if_neg h] at hc2
              simp only [Option.map_none'] at hc2
              cases hc2
          subst hcv
          constructor
          · intro j hj1 hjc
            obtain ⟨cyc, hout, _, _, _⟩ := outAt_formula src k hnk (t + j)
              (by omega) (by omega)
            exact ⟨_, hout⟩
          · rw [show t + (ffNat src.length k - t) + 1
              = ffNat src.length k + 1 by omega]
            exact outAt_exhaust src k hnk
        · rw [stepN_loaded src k hk1 hnk t (by omega)] at hc
          have hc2 : CompleteState.remaining
              (CompleteState.advanceN (.Start src.length k) t) = some c := hc
          obtain ⟨hsom, hend⟩ := count_loaded_spec hnk t c hc2
          constructor
          · intro j hj1 hjc
            exact (outAt_shape src k hnk (t + j) (by omega)).2 (hsom j hj1 hjc)
          · exact (outAt_shape src k hnk (t + c + 1) (by omega)).1 hend

/-- Claim C3 witness: after one call on [0,1,2] with k = 2, the count query
answers 5 and indeed the sixth further call is the last permutation. -/
theorem claim_C3_witness :
    (permutations [0, 1, 2] 2).outAt (1 + 5 + 1) = some none :=
  (claim_C3.1 Nat [0, 1, 2] 2 1 5 (by decide)).2

end Permut
